/-
  Verification of the bounded-concurrency crawl engine of
  `crawler_wordlist.py` (Baumigel/wordlist_crawler).

  The Python source is shallowly embedded below:
  * `normalize_url` and the fragment of `urllib.parse.urlparse` it relies on
    are translated character-by-character over `List Char`;
  * `extract_words` (the regex `[a-z]+` applied to the lowercased text) is
    translated as a maximal-run splitter over the lowercased character list;
  * the orchestrator `crawl_async` is translated as a state-passing loop over
    `CrawlState`, with network fetches abstracted by an oracle
    `fetch : String → FetchOutcome` describing the outcome of each HTTP GET
    (exception / non-HTML success / HTML success with page text and resolved
    anchor targets).  Per-character Unicode case mapping is modelled at the
    ASCII level, which is the level at which the program's word pattern
    `[a-z]+` operates.
-/
import Mathlib

namespace Crawler

/-! ### ASCII character helpers (model of `str.lower` at the ASCII level) -/

/-- `A`–`Z` as code points. -/
def isUpperA (c : Char) : Bool := 65 ≤ c.toNat && c.toNat ≤ 90

/-- `a`–`z` as code points; this is the character class of `WORD_PATTERN = [a-z]+`. -/
def isLowerA (c : Char) : Bool := 97 ≤ c.toNat && c.toNat ≤ 122

/-- `0`–`9` as code points. -/
def isDigitA (c : Char) : Bool := 48 ≤ c.toNat && c.toNat ≤ 57

/-- ASCII lowercasing of one character, the ASCII-level model of Python's
`str.lower` applied pointwise. -/
def lowerChar (c : Char) : Char :=
  if isUpperA c then Char.ofNat (c.toNat + 32) else c

/-! ### Word extraction (`WORD_PATTERN = re.compile(r'[a-z]+')`, `extract_words`) -/

/-- Accumulator-based splitter computing the maximal runs of characters
satisfying `isLowerA`, in order: the model of `WORD_PATTERN.findall`. -/
def runsAux : List Char → List Char → List (List Char)
  | [], acc => if acc = [] then [] else [acc.reverse]
  | c :: cs, acc =>
    if isLowerA c then runsAux cs (c :: acc)
    else (if acc = [] then [] else [acc.reverse]) ++ runsAux cs []

/-- `extract_words(text)`: `set(WORD_PATTERN.findall(text.lower()))` — the set of
maximal runs of ASCII lowercase letters of the lowercased input. -/
def extract_words (s : String) : Finset String :=
  ((runsAux (s.data.map lowerChar) []).map String.mk).toFinset

/-- ASCII uppercasing of one character, the ASCII-level model of Python's
`str.upper` applied pointwise; used only to express case-variance. -/
def upperChar (c : Char) : Char :=
  if isLowerA c then Char.ofNat (c.toNat - 32) else c

/-- Two strings are case variants when they agree letter-by-letter up to ASCII
case. -/
def CaseVariant (s t : String) : Prop :=
  s.data.map lowerChar = t.data.map lowerChar

/-! ### `normalize_url` and the fragment of `urllib.parse.urlparse` it uses

`normalize_url(url)` returns
`parsed.scheme + "://" + parsed.netloc + parsed.path + ("?" + parsed.query if parsed.query else "")`.
The embedding below translates CPython's `urlsplit`/`urlparse` including its
`ValueError` paths, which are represented as `none`: `urlsplit` raises
`ValueError("Invalid IPv6 URL")` when the netloc contains exactly one of
`[` / `]`, it validates a `[`-and-`]` netloc's bracketed host as an
IPv6/IPvFuture literal via `_check_bracketed_host` (3.11-and-newer), and
`_checknetloc` rejects certain non-ASCII netlocs after NFKC normalization
(it returns immediately when `netloc.isascii()`).  The bracketed-host and
NFKC validations depend on `ipaddress` and the Unicode database, so the model
treats them conservatively: it returns a value exactly on netlocs that are
bracket-free and ASCII-only — inputs on which every CPython version's
`urlsplit` provably returns — and `none` on every netloc containing a
bracket or a non-ASCII character, where `urlsplit` either always raises
(unbalanced brackets) or raises depending on `ipaddress`/NFKC data
(balanced brackets, non-ASCII).  The model therefore never returns a value
at an input where the real `normalize_url` raises. -/

/-- Characters allowed in a scheme (`scheme_chars` of `urllib.parse`). -/
def schemeChar (c : Char) : Bool :=
  isUpperA c || isLowerA c || isDigitA c || c == '+' || c == '-' || c == '.'

/-- The scheme-prefix validity test of `urlsplit`: a colon at position `> 0`,
first character an ASCII letter, and every character before the colon a scheme
character. -/
def validScheme (pre : List Char) : Bool :=
  match pre with
  | [] => false
  | c :: _ => (isUpperA c || isLowerA c) && pre.all schemeChar

/-- Scheme extraction of `urlsplit`: lowercases the scheme and drops it together
with the colon from the rest. -/
def splitScheme (u : List Char) : List Char × List Char :=
  let pre := u.takeWhile (fun c => c ≠ ':')
  if pre.length < u.length ∧ validScheme pre then
    (pre.map lowerChar, u.drop (pre.length + 1))
  else ([], u)

/-- A character that does not end a netloc (`_splitnetloc` stops at the first
of `/`, `?`, `#`). -/
def notDelim (c : Char) : Bool := !(c == '/' || c == '?' || c == '#')

/-- The netlocs on which `urlsplit`'s validation raises or may raise, per the
section comment: a netloc containing exactly one bracket makes every CPython
version raise `ValueError("Invalid IPv6 URL")`; one containing both brackets
is validated by `_check_bracketed_host` (3.11-and-newer) and one containing a
non-ASCII character by `_checknetloc`'s NFKC check, both modelled
conservatively as rejected. -/
def netlocInvalid (n : List Char) : Bool :=
  decide (('[' : Char) ∈ n) || decide ((']' : Char) ∈ n) ||
    !(n.all fun c => decide (c.toNat < 128))

/-- Netloc extraction of `urlsplit`: applies only when `url[:2] == '//'`; the
netloc is `url[2:]` up to the first of `/`, `?`, `#` (`_splitnetloc`), and is
then validated (`none` models the `ValueError` paths, see `netlocInvalid`).
When the input does not start with `//` the netloc is empty, on which
`_checknetloc` returns immediately. -/
def splitNetloc (u : List Char) : Option (List Char × List Char) :=
  if u.take 2 = ['/', '/'] then
    if netlocInvalid ((u.drop 2).takeWhile notDelim) = true then none
    else some ((u.drop 2).takeWhile notDelim, (u.drop 2).dropWhile notDelim)
  else some ([], u)

/-- Fragment removal of `urlsplit`: everything from the first `#` on is the
fragment, which `normalize_url` discards. -/
def dropFrag (u : List Char) : List Char := u.takeWhile (fun c => c ≠ '#')

/-- Query split of `urlsplit`: `url.split('?', 1)` when `?` occurs. -/
def splitQuery (u : List Char) : List Char × List Char :=
  (u.takeWhile (fun c => c ≠ '?'), (u.dropWhile (fun c => c ≠ '?')).drop 1)

/-- `uses_params` of `urllib.parse`. -/
def uses_params : List String :=
  ["", "ftp", "hdl", "prospero", "http", "imap", "https", "shttp", "rtsp",
   "rtspu", "sip", "sips", "mms", "sftp", "tel"]

/-- `_splitparams` of `urllib.parse`, returning only the path part: drops a
`;params` suffix of the last path segment. -/
def splitparams (p : List Char) : List Char :=
  if ('/' : Char) ∈ p then
    let seg := (p.reverse.takeWhile (fun c => c ≠ '/')).reverse
    let pre := (p.reverse.dropWhile (fun c => c ≠ '/')).reverse
    if (';' : Char) ∈ seg then pre ++ seg.takeWhile (fun c => c ≠ ';') else p
  else p.takeWhile (fun c => c ≠ ';')

/-- A path on which re-running the params split is the identity; the shape of
paths `urlparse` outputs, used in the idempotence analysis. -/
def SplitparamsId (p : List Char) : Prop :=
  (';' : Char) ∈ p → splitparams p = p

/-- The `(scheme, netloc, path, query)` components of `urlparse` used by
`normalize_url` (params are split off the path for the schemes of
`uses_params`, exactly as `urlparse` does; the fragment is dropped).  The
`ValueError` raised by `urlsplit`'s netloc validation (modelled inside
`splitNetloc`) propagates through `urlparse` unchanged, hence the
`Option.map`: `none` means the parse raises. -/
def pyUrlparse (u : List Char) : Option (List Char × List Char × List Char × List Char) :=
  (splitNetloc (splitScheme u).2).map fun n =>
    ((splitScheme u).1, n.1,
     (if String.mk (splitScheme u).1 ∈ uses_params ∧
          (';' : Char) ∈ (splitQuery (dropFrag n.2)).1
      then splitparams (splitQuery (dropFrag n.2)).1
      else (splitQuery (dropFrag n.2)).1),
     (splitQuery (dropFrag n.2)).2)

/-- `normalize_url` on character lists:
`scheme + "://" + netloc + path + ("?" + query if query else "")`;
`none` when `urlparse` raises. -/
def normList (u : List Char) : Option (List Char) :=
  (pyUrlparse u).map fun c =>
    c.1 ++ (':' :: '/' :: '/' :: c.2.1) ++ c.2.2.1 ++
      (if c.2.2.2 = [] then [] else '?' :: c.2.2.2)

/-- `normalize_url(url)` of the crawler: `none` models the `ValueError` its
`urlparse` call raises on netlocs rejected by `urlsplit`'s validation. -/
def normalize_url (s : String) : Option String :=
  (normList s.data).map String.mk

/-! ### The fetch oracle and `crawl_url`

A network fetch of one address ends in one of three ways, which is all the
orchestrator can observe through `crawl_url`:
* `err` — any exception inside the `try` block: transport/protocol errors,
  `raise_for_status()` on a non-2xx response, or a parse failure;
* `nonHtml` — a 2xx response whose `content-type` does not contain
  `text/html`;
* `html text anchors` — a 2xx HTML response; `text` is the visible text
  produced by `soup.get_text` after removing `script`/`style`/`nav`/`footer`/
  `header`, and `anchors` are the href targets of the page's anchor tags
  already resolved against the page address (`urljoin` is absorbed into the
  oracle; `normalize_url` is applied by `crawl_url` below, as in
  `extract_links`). -/

inductive FetchOutcome where
  | err : FetchOutcome
  | nonHtml : FetchOutcome
  | html : String → List String → FetchOutcome

/-- The loop of `extract_links`: normalize every resolved anchor target in
order, keeping the first occurrence of each (`links` is a set); `none` when
some normalization raises `ValueError`, aborting the loop at that link. -/
def normalizeLinks : List String → Option (List String)
  | [] => some []
  | l :: ls =>
    match normalize_url l, normalizeLinks ls with
    | some v, some vs => some (v :: vs)
    | _, _ => none

/-- `crawl_url(client, url, semaphore)`: returns `(url, words, links)`;
every exception is swallowed and becomes `(url, set(), set())` — including a
`ValueError` raised by `normalize_url` inside `extract_links`, which discards
the page's words as well since it aborts the `try` block before the `return`
at line 76. -/
def crawl_url (fetch : String → FetchOutcome) (url : String) :
    String × Finset String × List String :=
  match fetch url with
  | .err => (url, ∅, [])
  | .nonHtml => (url, ∅, [])
  | .html text anchors =>
    match normalizeLinks anchors with
    | some links => (url, extract_words text, links.dedup)
    | none => (url, ∅, [])

/-! ### The orchestrator `crawl_async` -/

/-- The mutable state of `crawl_async`: `visited` (a set, kept here as its
insertion-ordered list of elements), the frontier `queue` of
`(address, depth)` pairs, `pages_crawled`, and `all_words`. -/
structure CrawlState where
  visited : List String
  queue : List (String × Nat)
  pagesCrawled : Nat
  allWords : Finset String

/-- The inner dequeue loop of `crawl_async` (lines 105–109): pop entries while
the queue is nonempty and fewer than `mc` entries have been collected,
discarding entries whose depth exceeds `md`.  Returns the batch (in FIFO
order) and the remaining queue. -/
def dequeueBatchAux (md mc : Nat) : List (String × Nat) → List (String × Nat) →
    List (String × Nat) × List (String × Nat)
  | [], acc => (acc.reverse, [])
  | e :: q, acc =>
    if mc ≤ acc.length then (acc.reverse, e :: q)
    else if md < e.2 then dequeueBatchAux md mc q acc
    else dequeueBatchAux md mc q (e :: acc)

/-- One batch dequeue, starting from an empty accumulator. -/
def dequeue_batch (md mc : Nat) (q : List (String × Nat)) :
    List (String × Nat) × List (String × Nat) :=
  dequeueBatchAux md mc q []

/-- The link-enqueue loop (lines 124–127): for each link, if it is not in
`visited` and `visited` has fewer than `mp` elements, add it to `visited` and
append `(link, 0)` to the queue. -/
def enqueueLinks (mp : Nat) : List String × List (String × Nat) → List String →
    List String × List (String × Nat)
  | vq, [] => vq
  | vq, l :: ls =>
    if l ∉ vq.1 ∧ vq.1.length < mp then
      enqueueLinks mp (vq.1 ++ [l], vq.2 ++ [(l, 0)]) ls
    else enqueueLinks mp vq ls

/-- Processing of one result tuple (lines 118–127): every result of
`crawl_url` is a tuple, so the counter is incremented and the words merged for
every result; then each link is offered to the frontier. -/
def processResult (mp : Nat) (st : CrawlState)
    (r : String × Finset String × List String) : CrawlState :=
  let vq := enqueueLinks mp (st.visited, st.queue) r.2.2
  { visited := vq.1, queue := vq.2,
    pagesCrawled := st.pagesCrawled + 1,
    allWords := st.allWords ∪ r.2.1 }

/-- Fetching and merging one batch: `asyncio.gather` returns the results of
`crawl_url` in batch order, and the merge loop folds them into the state. -/
def processBatch (fetch : String → FetchOutcome) (mp : Nat)
    (batch : List (String × Nat)) (st : CrawlState) : CrawlState :=
  (batch.map (fun e => crawl_url fetch e.1)).foldl (processResult mp) st

/-- The main loop of `crawl_async` (line 102): while the queue is nonempty and
`pages_crawled < max_pages`, dequeue a batch of at most `workers * 2` entries;
if the batch is empty, break (the drained queue remains); otherwise fetch and
merge the batch and continue.  Each executed iteration increments
`pagesCrawled` by at least one, so fuel `mp + 1` (supplied by `crawlFull`)
never runs out. -/
def crawlLoop (fetch : String → FetchOutcome) (md mp w : Nat) :
    Nat → CrawlState → CrawlState
  | 0, st => st
  | Nat.succ fuel, st =>
    if st.queue = [] ∨ mp ≤ st.pagesCrawled then st
    else
      let b := dequeue_batch md (w * 2) st.queue
      if b.1 = [] then { st with queue := b.2 }
      else crawlLoop fetch md mp w fuel (processBatch fetch mp b.1 { st with queue := b.2 })

/-- The state set up by lines 84–87: the normalized seed is enqueued at depth
0 and immediately marked visited.  `normalize_url(start_url)` at line 85 runs
outside any `try`, so a seed on which it raises `ValueError` aborts the run
before the loop — the fail-fast on an invalid configuration that the
specification permits — represented as the empty run (no pages, no words). -/
def initState (s : String) : CrawlState :=
  match normalize_url s with
  | some v =>
    { visited := [v], queue := [(v, 0)], pagesCrawled := 0, allWords := ∅ }
  | none => { visited := [], queue := [], pagesCrawled := 0, allWords := ∅ }

/-- The final state of `crawl_async(start_url, max_depth, max_pages, workers)`. -/
def crawlFull (fetch : String → FetchOutcome) (s : String) (md mp w : Nat) :
    CrawlState :=
  crawlLoop fetch md mp w (mp + 1) (initState s)

/-- `crawl_async` returns `(pages_crawled, all_words)`. -/
def crawl_async (fetch : String → FetchOutcome) (s : String) (md mp w : Nat) :
    Nat × Finset String :=
  ((crawlFull fetch s md mp w).pagesCrawled, (crawlFull fetch s md mp w).allWords)

/-- The states the orchestrator passes through: the initial state, and the
state after each executed loop iteration (`run` when the dequeued batch is
nonempty, `stop` for the iteration that drains the queue into an empty batch
and breaks). -/
inductive Reach (fetch : String → FetchOutcome) (s : String) (md mp w : Nat) :
    CrawlState → Prop where
  | init : Reach fetch s md mp w (initState s)
  | run : ∀ st, Reach fetch s md mp w st → st.queue ≠ [] → st.pagesCrawled < mp →
      (dequeue_batch md (w * 2) st.queue).1 ≠ [] →
      Reach fetch s md mp w (processBatch fetch mp (dequeue_batch md (w * 2) st.queue).1
        { st with queue := (dequeue_batch md (w * 2) st.queue).2 })
  | stop : ∀ st, Reach fetch s md mp w st → st.queue ≠ [] → st.pagesCrawled < mp →
      (dequeue_batch md (w * 2) st.queue).1 = [] →
      Reach fetch s md mp w { st with queue := (dequeue_batch md (w * 2) st.queue).2 }

/-- Every word of a word corpus is a nonempty all-lowercase ASCII token. -/
def AllLowerWords (S : Finset String) : Prop :=
  ∀ w ∈ S, w ≠ "" ∧ w.data.all isLowerA = true

/-- Invariant of every state the orchestrator reaches: `visited` is
duplicate-free, the queue holds pairwise-distinct visited addresses at depth
0, the pages counter plus the pending queue never exceeds the visited count,
`visited` never exceeds `max 1 mp` (the seed is added unconditionally), and
the corpus holds only nonempty lowercase tokens. -/
def Inv (mp : Nat) (st : CrawlState) : Prop :=
  st.visited.Nodup ∧
  (st.queue.map Prod.fst).Nodup ∧
  (∀ e ∈ st.queue, e.1 ∈ st.visited) ∧
  (∀ e ∈ st.queue, e.2 = 0) ∧
  st.pagesCrawled + st.queue.length ≤ st.visited.length ∧
  st.visited.length ≤ max 1 mp ∧
  AllLowerWords st.allWords

/-! ### Character-level lemmas -/

theorem toNat_ofNat_valid (n : Nat) (h : n.isValidChar) : (Char.ofNat n).toNat = n := by
  rw [Char.ofNat, dif_pos h]
  rfl

theorem toNat_lowerChar_of_upper (c : Char) (h : isUpperA c = true) :
    (lowerChar c).toNat = c.toNat + 32 := by
  have hle : c.toNat + 32 < 55296 := by
    simp only [isUpperA, Bool.and_eq_true, decide_eq_true_eq] at h
    omega
  rw [lowerChar, if_pos h, toNat_ofNat_valid _ (Or.inl hle)]

theorem lowerChar_of_not_upper (c : Char) (h : ¬ isUpperA c = true) :
    lowerChar c = c := by
  rw [lowerChar, if_neg h]

theorem isLowerA_lowerChar_of_upper (c : Char) (h : isUpperA c = true) :
    isLowerA (lowerChar c) = true := by
  simp only [isUpperA, Bool.and_eq_true, decide_eq_true_eq] at h
  simp only [isLowerA, Bool.and_eq_true, decide_eq_true_eq,
    toNat_lowerChar_of_upper c (by simp [isUpperA]; omega)]
  omega

theorem lowerChar_idem (c : Char) : lowerChar (lowerChar c) = lowerChar c := by
  by_cases h : isUpperA c = true
  · have h2 : isLowerA (lowerChar c) = true := isLowerA_lowerChar_of_upper c h
    apply lowerChar_of_not_upper
    simp only [isLowerA, Bool.and_eq_true, decide_eq_true_eq] at h2
    simp only [isUpperA, Bool.and_eq_true, decide_eq_true_eq, not_and]
    omega
  · rw [lowerChar_of_not_upper c h]
    exact lowerChar_of_not_upper c h

/-! ### Lemmas about `dequeue_batch` -/

theorem dequeueBatchAux_all_le (md mc : Nat) (q : List (String × Nat))
    (hq : ∀ e ∈ q, e.2 ≤ md) (acc : List (String × Nat)) :
    dequeueBatchAux md mc q acc =
      (acc.reverse ++ q.take (mc - acc.length), q.drop (mc - acc.length)) := by
  induction q generalizing acc with
  | nil => simp [dequeueBatchAux]
  | cons e q ih =>
    by_cases hmc : mc ≤ acc.length
    · have h0 : mc - acc.length = 0 := Nat.sub_eq_zero_of_le hmc
      simp [dequeueBatchAux, if_pos hmc, h0]
    · have he : ¬ md < e.2 := by
        have := hq e (List.mem_cons_self e q)
        omega
      have hk : mc - acc.length = (mc - (acc.length + 1)) + 1 := by omega
      rw [dequeueBatchAux, if_neg hmc, if_neg he,
        ih (fun x hx => hq x (List.mem_cons_of_mem _ hx)) (e :: acc)]
      simp [hk, List.take_succ_cons, List.drop_succ_cons]

theorem dequeueBatchAux_filter (md mc : Nat) (q : List (String × Nat))
    (acc : List (String × Nat)) :
    (dequeueBatchAux md mc q acc).1 =
      acc.reverse ++ ((q.filter (fun e => e.2 ≤ md)).take (mc - acc.length)) := by
  induction q generalizing acc with
  | nil => simp [dequeueBatchAux]
  | cons e q ih =>
    by_cases hmc : mc ≤ acc.length
    · have h0 : mc - acc.length = 0 := Nat.sub_eq_zero_of_le hmc
      simp [dequeueBatchAux, if_pos hmc, h0]
    · by_cases he : md < e.2
      · have hf : (decide (e.2 ≤ md)) = false := by simp; omega
        rw [dequeueBatchAux, if_neg hmc, if_pos he, ih acc]
        simp [List.filter_cons, hf]
      · have hf : (decide (e.2 ≤ md)) = true := by simp; omega
        have hk : mc - acc.length = (mc - (acc.length + 1)) + 1 := by omega
        rw [dequeueBatchAux, if_neg hmc, if_neg he, ih (e :: acc)]
        simp [List.filter_cons, hf, hk, List.take_succ_cons]

theorem dequeueBatchAux_split (md mc : Nat) (q : List (String × Nat))
    (acc : List (String × Nat)) :
    ∃ n, dequeueBatchAux md mc q acc =
      (acc.reverse ++ (q.take n).filter (fun e => e.2 ≤ md), q.drop n) := by
  induction q generalizing acc with
  | nil => exact ⟨0, by simp [dequeueBatchAux]⟩
  | cons e q ih =>
    by_cases hmc : mc ≤ acc.length
    · exact ⟨0, by simp [dequeueBatchAux, if_pos hmc]⟩
    · by_cases he : md < e.2
      · obtain ⟨n, hn⟩ := ih acc
        refine ⟨n + 1, ?_⟩
        have hf : (decide (e.2 ≤ md)) = false := by simp; omega
        rw [dequeueBatchAux, if_neg hmc, if_pos he, hn]
        simp [List.take_succ_cons, List.filter_cons, hf, List.drop_succ_cons]
      · obtain ⟨n, hn⟩ := ih (e :: acc)
        refine ⟨n + 1, ?_⟩
        have hf : (decide (e.2 ≤ md)) = true := by simp; omega
        rw [dequeueBatchAux, if_neg hmc, if_neg he, hn]
        simp [List.take_succ_cons, List.filter_cons, hf, List.drop_succ_cons]

/-- With every entry within the depth bound, a batch dequeue is exactly
`take`/`drop`: nothing is discarded. -/
theorem dequeue_batch_all_le (md mc : Nat) (q : List (String × Nat))
    (hq : ∀ e ∈ q, e.2 ≤ md) :
    dequeue_batch md mc q = (q.take mc, q.drop mc) := by
  rw [dequeue_batch, dequeueBatchAux_all_le md mc q hq []]
  simp

/-- The batch is the first `mc` within-depth entries, in FIFO order. -/
theorem dequeue_batch_fst (md mc : Nat) (q : List (String × Nat)) :
    (dequeue_batch md mc q).1 = (q.filter (fun e => e.2 ≤ md)).take mc := by
  rw [dequeue_batch, dequeueBatchAux_filter]
  simp

/-- A batch dequeue consumes a prefix of the queue: the batch is the
within-depth part of the consumed prefix and the rest of the queue is
untouched. -/
theorem dequeue_batch_split (md mc : Nat) (q : List (String × Nat)) :
    ∃ n, dequeue_batch md mc q =
      ((q.take n).filter (fun e => e.2 ≤ md), q.drop n) := by
  obtain ⟨n, hn⟩ := dequeueBatchAux_split md mc q []
  exact ⟨n, by simpa using hn⟩

/-- The batch together with the remaining queue is a sublist of the original
queue; in particular no entry is duplicated by a dequeue. -/
theorem dequeue_batch_sublist (md mc : Nat) (q : List (String × Nat)) :
    ((dequeue_batch md mc q).1 ++ (dequeue_batch md mc q).2).Sublist q := by
  obtain ⟨n, hn⟩ := dequeue_batch_split md mc q
  rw [hn]
  have h1 : ((q.take n).filter (fun e => e.2 ≤ md) ++ q.drop n).Sublist
      (q.take n ++ q.drop n) :=
    List.Sublist.append (List.filter_sublist _) (List.Sublist.refl _)
  rw [List.take_append_drop] at h1
  exact h1

/-! ### Lemmas about `enqueueLinks` -/

/-- Enqueueing links appends a block of fresh addresses to `visited` and the
matching depth-0 entries to the queue; the block is duplicate-free, disjoint
from `visited`, and never pushes `visited` past the page budget. -/
theorem enqueueLinks_spec (mp : Nat) (ls : List String) (v : List String)
    (q : List (String × Nat)) :
    ∃ new : List String,
      enqueueLinks mp (v, q) ls = (v ++ new, q ++ new.map (fun a => (a, 0))) ∧
      (∀ a ∈ new, a ∉ v) ∧ new.Nodup ∧ (v ++ new).length ≤ max v.length mp := by
  induction ls generalizing v q with
  | nil =>
    refine ⟨[], by simp [enqueueLinks], by simp, List.nodup_nil, ?_⟩
    simp
  | cons l ls ih =>
    by_cases hc : l ∉ v ∧ v.length < mp
    · obtain ⟨new, h1, h2, h3, h4⟩ := ih (v ++ [l]) (q ++ [(l, 0)])
      refine ⟨l :: new, ?_, ?_, ?_, ?_⟩
      · rw [enqueueLinks, if_pos hc, h1]
        simp
      · intro a ha
        rcases List.mem_cons.mp ha with rfl | ha'
        · exact hc.1
        · intro hav
          exact h2 a ha' (by simp [hav])
      · refine List.Nodup.cons (fun hl => h2 l hl (by simp)) h3
      · have hlen : v.length + 1 ≤ mp := hc.2
        simp only [List.length_append, List.length_cons] at h4 ⊢
        omega
    · obtain ⟨new, h1, h2, h3, h4⟩ := ih v q
      exact ⟨new, by rw [enqueueLinks, if_neg hc]; exact h1, h2, h3, h4⟩

/-- Two links to the same address adjacent in one page's link set produce at
most one frontier entry: the duplicate is a no-op. -/
theorem enqueueLinks_dup (mp : Nat) (v : List String) (q : List (String × Nat))
    (l : String) (ls : List String) :
    enqueueLinks mp (v, q) (l :: l :: ls) = enqueueLinks mp (v, q) (l :: ls) := by
  by_cases hc : l ∉ v ∧ v.length < mp
  · simp only [enqueueLinks]
    simp [hc.1, hc.2]
  · simp only [enqueueLinks]
    simp [hc]

/-! ### All extracted words are nonempty lowercase tokens -/

/-- Every run produced by `runsAux` from an all-lowercase accumulator is a
nonempty list of `a`–`z` characters. -/
theorem runsAux_mem (cs : List Char) (acc : List Char)
    (hacc : ∀ c ∈ acc, isLowerA c = true) :
    ∀ r ∈ runsAux cs acc, r ≠ [] ∧ ∀ c ∈ r, isLowerA c = true := by
  induction cs generalizing acc with
  | nil =>
    intro r hr
    by_cases h : acc = []
    · simp [runsAux, h] at hr
    · rw [runsAux, if_neg h] at hr
      simp only [List.mem_singleton] at hr
      subst hr
      exact ⟨by simpa using h, fun c hc => hacc c (List.mem_reverse.mp hc)⟩
  | cons c cs ih =>
    intro r hr
    by_cases hl : isLowerA c = true
    · rw [runsAux, if_pos hl] at hr
      refine ih (c :: acc) ?_ r hr
      intro x hx
      rcases List.mem_cons.mp hx with rfl | hx'
      · exact hl
      · exact hacc x hx'
    · rw [runsAux, if_neg hl] at hr
      rcases List.mem_append.mp hr with h1 | h2
      · by_cases h : acc = []
        · simp [h] at h1
        · rw [if_neg h] at h1
          simp only [List.mem_singleton] at h1
          subst h1
          exact ⟨by simpa using h, fun x hx => hacc x (List.mem_reverse.mp hx)⟩
      · exact ih [] (by simp) r h2

theorem extract_words_allLower (s : String) : AllLowerWords (extract_words s) := by
  intro w hw
  simp only [extract_words, List.mem_toFinset, List.mem_map] at hw
  obtain ⟨r, hr, rfl⟩ := hw
  obtain ⟨hne, hall⟩ := runsAux_mem (s.data.map lowerChar) [] (by simp) r hr
  constructor
  · intro h
    apply hne
    have : (String.mk r).data = ("" : String).data := by rw [h]
    simpa using this
  · simpa [List.all_eq_true] using hall

theorem crawl_url_allLower (fetch : String → FetchOutcome) (u : String) :
    AllLowerWords (crawl_url fetch u).2.1 := by
  cases h : fetch u with
  | err => intro w hw; simp [crawl_url, h] at hw
  | nonHtml => intro w hw; simp [crawl_url, h] at hw
  | html text anchors =>
    intro w hw
    simp only [crawl_url, h] at hw
    cases hl : normalizeLinks anchors with
    | some links =>
      rw [hl] at hw
      have hw2 : w ∈ extract_words text := hw
      exact extract_words_allLower text w hw2
    | none =>
      rw [hl] at hw
      have hw2 : w ∈ (∅ : Finset String) := hw
      simp at hw2

/-! ### The crawl invariant -/

theorem processResults_inv (mp : Nat)
    (rs : List (String × Finset String × List String))
    (hrs : ∀ r ∈ rs, AllLowerWords r.2.1) :
    ∀ st : CrawlState, st.visited.Nodup → (st.queue.map Prod.fst).Nodup →
    (∀ e ∈ st.queue, e.1 ∈ st.visited) → (∀ e ∈ st.queue, e.2 = 0) →
    AllLowerWords st.allWords → st.visited.length ≤ max 1 mp →
    st.pagesCrawled + rs.length + st.queue.length ≤ st.visited.length →
    Inv mp (rs.foldl (processResult mp) st) := by
  induction rs with
  | nil =>
    intro st hv hqn hqv hd hw hlen hcount
    exact ⟨hv, hqn, hqv, hd, by simpa using hcount, hlen, hw⟩
  | cons r rs ih =>
    intro st hv hqn hqv hd hw hlen hcount
    simp only [List.foldl_cons]
    obtain ⟨new, he, hnotin, hnodup, hle⟩ :=
      enqueueLinks_spec mp r.2.2 st.visited st.queue
    have hst' : processResult mp st r =
        { visited := st.visited ++ new,
          queue := st.queue ++ new.map (fun a => (a, 0)),
          pagesCrawled := st.pagesCrawled + 1,
          allWords := st.allWords ∪ r.2.1 } := by
      show ({ visited := (enqueueLinks mp (st.visited, st.queue) r.2.2).1,
              queue := (enqueueLinks mp (st.visited, st.queue) r.2.2).2,
              pagesCrawled := st.pagesCrawled + 1,
              allWords := st.allWords ∪ r.2.1 } : CrawlState) = _
      rw [he]
    rw [hst']
    apply ih (fun x hx => hrs x (List.mem_cons_of_mem _ hx))
    · exact List.nodup_append.mpr ⟨hv, hnodup, fun a hav han => hnotin a han hav⟩
    · show ((st.queue ++ new.map (fun a => (a, 0))).map Prod.fst).Nodup
      simp only [List.map_append, List.map_map]
      have hmm : (new.map (Prod.fst ∘ fun a => ((a, 0) : String × Nat))) = new := by
        have hid : (Prod.fst ∘ fun a => ((a, 0) : String × Nat)) = id := by
          funext a
          rfl
        rw [hid, List.map_id]
      rw [hmm]
      refine List.nodup_append.mpr ⟨hqn, hnodup, ?_⟩
      intro a hav han
      obtain ⟨e, he', rfl⟩ := List.mem_map.mp hav
      exact hnotin _ han (hqv e he')
    · intro e hee
      rcases List.mem_append.mp hee with h1 | h2
      · exact List.mem_append_left _ (hqv e h1)
      · obtain ⟨a, ha, rfl⟩ := List.mem_map.mp h2
        exact List.mem_append_right _ ha
    · intro e hee
      rcases List.mem_append.mp hee with h1 | h2
      · exact hd e h1
      · obtain ⟨a, ha, rfl⟩ := List.mem_map.mp h2
        rfl
    · intro x hx
      rcases Finset.mem_union.mp hx with h1 | h2
      · exact hw x h1
      · exact hrs r (List.mem_cons_self _ _) x h2
    · show (st.visited ++ new).length ≤ max 1 mp
      simp only [List.length_append] at hle ⊢
      omega
    · show st.pagesCrawled + 1 + rs.length +
        (st.queue ++ new.map (fun a => (a, 0))).length ≤ (st.visited ++ new).length
      simp only [List.length_append, List.length_map, List.length_cons] at hcount ⊢
      omega

theorem reach_inv (fetch : String → FetchOutcome) (s : String) (md mp w : Nat) :
    ∀ st, Reach fetch s md mp w st → Inv mp st := by
  intro st h
  induction h with
  | init =>
    cases hn : normalize_url s with
    | some v =>
      refine ⟨by simp [initState, hn], by simp [initState, hn],
        by simp [initState, hn], by simp [initState, hn],
        by simp [initState, hn], by simp [initState, hn], ?_⟩
      intro x hx
      simp [initState, hn] at hx
    | none =>
      refine ⟨by simp [initState, hn], by simp [initState, hn],
        by simp [initState, hn], by simp [initState, hn],
        by simp [initState, hn], by simp [initState, hn], ?_⟩
      intro x hx
      simp [initState, hn] at hx
  | run st' hr hq hp hb ih =>
    obtain ⟨hv, hqn, hqv, hd, hcount, hlen, hw⟩ := ih
    obtain ⟨n, hn⟩ := dequeue_batch_split md (w * 2) st'.queue
    have hbatch : (dequeue_batch md (w * 2) st'.queue).1 =
        (st'.queue.take n).filter (fun e => e.2 ≤ md) := by rw [hn]
    have hrest : (dequeue_batch md (w * 2) st'.queue).2 = st'.queue.drop n := by rw [hn]
    have hsub : (st'.queue.drop n).Sublist st'.queue := List.drop_sublist n _
    apply processResults_inv
    · intro r hrm
      obtain ⟨e, _, rfl⟩ := List.mem_map.mp hrm
      exact crawl_url_allLower fetch e.1
    · exact hv
    · exact List.Nodup.sublist (List.Sublist.map Prod.fst (by rw [hrest]; exact hsub)) hqn
    · intro e hee
      rw [hrest] at hee
      exact hqv e (List.Sublist.mem hee hsub)
    · intro e hee
      rw [hrest] at hee
      exact hd e (List.Sublist.mem hee hsub)
    · exact hw
    · exact hlen
    · simp only [List.length_map, hbatch, hrest]
      have h1 : ((st'.queue.take n).filter (fun e => e.2 ≤ md)).length ≤
          (st'.queue.take n).length := List.length_filter_le _ _
      have h2 : (st'.queue.take n).length = min n st'.queue.length :=
        List.length_take n _
      have h3 : (st'.queue.drop n).length = st'.queue.length - n :=
        List.length_drop n _
      omega
  | stop st' hr hq hp hb ih =>
    obtain ⟨hv, hqn, hqv, hd, hcount, hlen, hw⟩ := ih
    obtain ⟨n, hn⟩ := dequeue_batch_split md (w * 2) st'.queue
    have hrest : (dequeue_batch md (w * 2) st'.queue).2 = st'.queue.drop n := by rw [hn]
    have hsub : (st'.queue.drop n).Sublist st'.queue := List.drop_sublist n _
    rw [hrest]
    refine ⟨hv, List.Nodup.sublist (List.Sublist.map Prod.fst hsub) hqn,
      fun e hee => hqv e (List.Sublist.mem hee hsub),
      fun e hee => hd e (List.Sublist.mem hee hsub), ?_, hlen, hw⟩
    have h3 : (st'.queue.drop n).length ≤ st'.queue.length :=
      List.Sublist.length_le hsub
    show st'.pagesCrawled + (st'.queue.drop n).length ≤ st'.visited.length
    omega

theorem reach_crawlLoop (fetch : String → FetchOutcome) (s : String) (md mp w : Nat)
    (fuel : Nat) : ∀ st : CrawlState, Reach fetch s md mp w st →
    Reach fetch s md mp w (crawlLoop fetch md mp w fuel st) := by
  induction fuel with
  | zero => intro st h; simpa [crawlLoop] using h
  | succ fuel ih =>
    intro st h
    by_cases hc : st.queue = [] ∨ mp ≤ st.pagesCrawled
    · rw [crawlLoop, if_pos hc]
      exact h
    · push_neg at hc
      by_cases hb : (dequeue_batch md (w * 2) st.queue).1 = []
      · rw [crawlLoop, if_neg (by push_neg; exact hc)]
        simp only [hb, if_pos rfl]
        exact Reach.stop st h hc.1 (by omega) hb
      · rw [crawlLoop, if_neg (by push_neg; exact hc)]
        simp only [if_neg hb]
        exact ih _ (Reach.run st h hc.1 (by omega) hb)

theorem reach_crawlFull (fetch : String → FetchOutcome) (s : String) (md mp w : Nat) :
    Reach fetch s md mp w (crawlFull fetch s md mp w) :=
  reach_crawlLoop fetch s md mp w (mp + 1) (initState s) Reach.init

theorem lowerChar_upperChar (c : Char) : lowerChar (upperChar c) = lowerChar c := by
  by_cases hl : isLowerA c = true
  · simp only [isLowerA, Bool.and_eq_true, decide_eq_true_eq] at hl
    have hval : (c.toNat - 32).isValidChar := Or.inl (by omega)
    have ht : (upperChar c).toNat = c.toNat - 32 := by
      rw [upperChar, if_pos (by simp [isLowerA]; omega), toNat_ofNat_valid _ hval]
    have hup : isUpperA (upperChar c) = true := by
      simp only [isUpperA, ht, Bool.and_eq_true, decide_eq_true_eq]
      omega
    have hnotup : ¬ isUpperA c = true := by
      simp only [isUpperA, Bool.and_eq_true, decide_eq_true_eq, not_and]
      omega
    rw [lowerChar, if_pos hup, ht, lowerChar_of_not_upper c hnotup]
    have : c.toNat - 32 + 32 = c.toNat := by omega
    rw [this, Char.ofNat_toNat]
  · rw [upperChar, if_neg hl]

/-- Uppercasing a whole string yields a case variant. -/
theorem caseVariant_upper (s : String) :
    CaseVariant (String.mk (s.data.map upperChar)) s := by
  show (s.data.map upperChar).map lowerChar = s.data.map lowerChar
  rw [List.map_map]
  have : (lowerChar ∘ upperChar) = lowerChar := by
    funext c
    exact lowerChar_upperChar c
  rw [this]

/-! ### Counting and corpus lemmas for the merge loop -/

theorem processResults_pages (mp : Nat)
    (rs : List (String × Finset String × List String)) :
    ∀ st : CrawlState, (rs.foldl (processResult mp) st).pagesCrawled =
      st.pagesCrawled + rs.length := by
  induction rs with
  | nil => intro st; simp
  | cons r rs ih =>
    intro st
    have h1 : (processResult mp st r).pagesCrawled = st.pagesCrawled + 1 := rfl
    simp only [List.foldl_cons, ih, h1, List.length_cons]
    omega

theorem processResults_words (mp : Nat)
    (rs : List (String × Finset String × List String)) :
    ∀ st : CrawlState, (rs.foldl (processResult mp) st).allWords =
      rs.foldl (fun acc r => acc ∪ r.2.1) st.allWords := by
  induction rs with
  | nil => intro st; simp
  | cons r rs ih =>
    intro st
    have h1 : (processResult mp st r).allWords = st.allWords ∪ r.2.1 := rfl
    simp only [List.foldl_cons, ih, h1]

/-! ### Generic list helpers for the `normalize_url` analysis -/

theorem takeWhile_append_stop {α : Type} {p : α → Bool} {a : List α} (b : List α)
    {x : α} (hx : x ∈ a) (hpx : p x = false) :
    (a ++ b).takeWhile p = a.takeWhile p := by
  induction a with
  | nil => cases hx
  | cons c a ih =>
    by_cases hc : p c
    · rcases List.mem_cons.mp hx with rfl | hx'
      · simp [hc] at hpx
      · rw [List.cons_append, List.takeWhile_cons_of_pos hc,
          List.takeWhile_cons_of_pos hc, ih hx']
    · rw [List.cons_append, List.takeWhile_cons_of_neg hc,
        List.takeWhile_cons_of_neg hc]

theorem dropWhile_append_stop {α : Type} {p : α → Bool} {a : List α} (b : List α)
    {x : α} (hx : x ∈ a) (hpx : p x = false) :
    (a ++ b).dropWhile p = a.dropWhile p ++ b := by
  induction a with
  | nil => cases hx
  | cons c a ih =>
    by_cases hc : p c
    · rcases List.mem_cons.mp hx with rfl | hx'
      · simp [hc] at hpx
      · rw [List.cons_append, List.dropWhile_cons_of_pos hc,
          List.dropWhile_cons_of_pos hc, ih hx']
    · rw [List.cons_append, List.dropWhile_cons_of_neg hc,
        List.dropWhile_cons_of_neg hc, List.cons_append]

theorem takeWhile_all {α : Type} {p : α → Bool} {a : List α}
    (h : ∀ x ∈ a, p x = true) : a.takeWhile p = a := by
  have h2 := @List.takeWhile_append_of_pos _ p a [] h
  simpa using h2

theorem dropWhile_all {α : Type} {p : α → Bool} {a : List α}
    (h : ∀ x ∈ a, p x = true) : a.dropWhile p = [] := by
  have h2 := @List.dropWhile_append_of_pos _ p a [] h
  simpa using h2

theorem dropWhile_head_false {α : Type} {p : α → Bool} :
    ∀ {l : List α} {c : α} {t : List α}, l.dropWhile p = c :: t → p c = false := by
  intro l
  induction l with
  | nil =>
    intro c t h
    cases h
  | cons a l ih =>
    intro c t h
    by_cases ha : p a
    · rw [List.dropWhile_cons_of_pos ha] at h
      exact ih h
    · rw [List.dropWhile_cons_of_neg ha] at h
      injection h with h1 _
      subst h1
      simpa using ha

theorem drop_append_le {α : Type} {l₁ l₂ : List α} {m : Nat} (h : m ≤ l₁.length) :
    (l₁ ++ l₂).drop m = l₁.drop m ++ l₂ := by
  conv_lhs => rw [← List.take_append_drop m l₁]
  rw [List.append_assoc, List.drop_left' (by rw [List.length_take]; omega)]

/-! ### Character facts for the URL grammar -/

theorem schemeChar_ne_colon {c : Char} (h : schemeChar c = true) : c ≠ ':' := by
  rintro rfl
  exact absurd h (by decide)

theorem notDelim_ne_slash {c : Char} (h : notDelim c = true) : c ≠ '/' := by
  rintro rfl
  exact absurd h (by decide)

theorem notDelim_false_cases {c : Char} (h : notDelim c = false) :
    c = '/' ∨ c = '?' ∨ c = '#' := by
  by_contra hc
  push_neg at hc
  obtain ⟨h1, h2, h3⟩ := hc
  have h4 : notDelim c = true := by
    simp [notDelim, h1, h2, h3]
  rw [h4] at h
  cases h

theorem not_upper_of_lower {c : Char} (h : isLowerA c = true) :
    ¬ isUpperA c = true := by
  simp only [isLowerA, Bool.and_eq_true, decide_eq_true_eq] at h
  simp only [isUpperA, Bool.and_eq_true, decide_eq_true_eq, not_and]
  omega

theorem schemeChar_lowerChar {c : Char} (h : schemeChar c = true) :
    schemeChar (lowerChar c) = true := by
  by_cases hu : isUpperA c = true
  · have hl := isLowerA_lowerChar_of_upper c hu
    simp [schemeChar, hl]
  · rw [lowerChar_of_not_upper c hu]
    exact h

theorem map_lowerChar_idem (l : List Char) :
    (l.map lowerChar).map lowerChar = l.map lowerChar := by
  rw [List.map_map]
  have h : (lowerChar ∘ lowerChar) = lowerChar := by
    funext c
    exact lowerChar_idem c
  rw [h]

/-! ### `splitScheme` lemmas -/

theorem validScheme_all {pre : List Char} (h : validScheme pre = true) :
    pre.all schemeChar = true := by
  cases pre with
  | nil => cases h
  | cons c rest =>
    have h2 : ((isUpperA c || isLowerA c) && (c :: rest).all schemeChar) = true := h
    exact (Bool.and_eq_true_iff.mp h2).2

theorem validScheme_map_lower {pre : List Char} (h : validScheme pre = true) :
    validScheme (pre.map lowerChar) = true := by
  cases pre with
  | nil => cases h
  | cons c rest =>
    have h2 : ((isUpperA c || isLowerA c) && (c :: rest).all schemeChar) = true := h
    obtain ⟨hhead, hall⟩ := Bool.and_eq_true_iff.mp h2
    have hhead' : (isUpperA (lowerChar c) || isLowerA (lowerChar c)) = true := by
      rcases Bool.or_eq_true_iff.mp hhead with hu | hl
      · simp [isLowerA_lowerChar_of_upper c hu]
      · rw [lowerChar_of_not_upper c (not_upper_of_lower hl)]
        simp [hl]
    have hall' : ((c :: rest).map lowerChar).all schemeChar = true := by
      rw [List.all_eq_true] at hall ⊢
      intro x hx
      obtain ⟨y, hy, rfl⟩ := List.mem_map.mp hx
      exact schemeChar_lowerChar (hall y hy)
    show ((isUpperA (lowerChar c) || isLowerA (lowerChar c)) &&
      ((c :: rest).map lowerChar).all schemeChar) = true
    rw [Bool.and_eq_true]
    exact ⟨hhead', hall'⟩

theorem splitScheme_assemble {s : List Char} (R : List Char)
    (hvs : validScheme s = true) (hlow : s.map lowerChar = s) :
    splitScheme (s ++ ':' :: R) = (s, R) := by
  have hall : s.all schemeChar = true := validScheme_all hvs
  have hpre : (s ++ ':' :: R).takeWhile (fun c => c ≠ ':') = s := by
    have h1 : ∀ x ∈ s, (fun c => decide (c ≠ ':')) x = true := by
      intro x hx
      simp only [decide_eq_true_eq]
      exact schemeChar_ne_colon (List.all_eq_true.mp hall x hx)
    rw [@List.takeWhile_append_of_pos _ _ s (':' :: R) h1,
      List.takeWhile_cons_of_neg (by simp)]
    simp
  simp only [splitScheme]
  rw [hpre]
  have hlen : s.length < (s ++ ':' :: R).length := by simp
  rw [if_pos ⟨hlen, hvs⟩, hlow]
  have hsplit : s ++ ':' :: R = (s ++ [':']) ++ R := by simp
  rw [hsplit, List.drop_left' (by simp)]

/-! ### `splitNetloc` lemmas -/

theorem splitNetloc_assemble {n : List Char} (D : List Char)
    (hn : ∀ c ∈ n, notDelim c = true) :
    splitNetloc ('/' :: '/' :: (n ++ D)) =
      if netlocInvalid (n ++ D.takeWhile notDelim) = true then none
      else some (n ++ D.takeWhile notDelim, D.dropWhile notDelim) := by
  have h2 : (('/' :: '/' :: (n ++ D)) : List Char).take 2 = ['/', '/'] := rfl
  have h3 : (('/' :: '/' :: (n ++ D)) : List Char).drop 2 = n ++ D := rfl
  rw [splitNetloc, if_pos h2, h3,
    @List.takeWhile_append_of_pos _ notDelim n D hn,
    @List.dropWhile_append_of_pos _ notDelim n D hn]

/-- Whatever `splitNetloc` returns satisfies the validity check, keeps only
non-delimiter characters in the netloc, draws both parts from the input, and
leaves a rest that is empty or delimiter-headed whenever the netloc is
nonempty. -/
theorem splitNetloc_some_elim {v : List Char} {nn : List Char × List Char}
    (h : splitNetloc v = some nn) :
    netlocInvalid nn.1 = false ∧ (∀ c ∈ nn.1, notDelim c = true) ∧
    (∀ x ∈ nn.1, x ∈ v) ∧ (∀ x ∈ nn.2, x ∈ v) ∧
    (nn.1 ≠ [] → nn.2 = List.dropWhile notDelim (v.drop 2)) := by
  rw [splitNetloc] at h
  by_cases h2 : v.take 2 = ['/', '/']
  · rw [if_pos h2] at h
    by_cases h3 : netlocInvalid ((v.drop 2).takeWhile notDelim) = true
    · rw [if_pos h3] at h
      cases h
    · rw [if_neg h3] at h
      have hc : ((v.drop 2).takeWhile notDelim, (v.drop 2).dropWhile notDelim) = nn :=
        Option.some.inj h
      refine ⟨?_, ?_, ?_, ?_, ?_⟩
      · rw [← hc]
        exact Bool.eq_false_iff.mpr h3
      · rw [← hc]
        intro c hcmem
        exact List.mem_takeWhile_imp hcmem
      · rw [← hc]
        intro x hx
        exact List.drop_subset 2 v (List.takeWhile_subset _ hx)
      · rw [← hc]
        intro x hx
        exact List.drop_subset 2 v (List.dropWhile_subset _ hx)
      · rw [← hc]
        intro _
        rfl
  · rw [if_neg h2] at h
    have hc : (([], v) : List Char × List Char) = nn := Option.some.inj h
    refine ⟨?_, ?_, ?_, ?_, ?_⟩
    · rw [← hc]
      rfl
    · rw [← hc]
      intro c hcmem
      cases hcmem
    · rw [← hc]
      intro x hx
      cases hx
    · rw [← hc]
      intro x hx
      exact hx
    · rw [← hc]
      intro hne
      cases hne rfl

/-! ### `splitparams` lemmas -/

theorem splitparams_eq (p : List Char) :
    splitparams p =
      if ('/' : Char) ∈ p then
        if (';' : Char) ∈ (p.reverse.takeWhile (fun c => c ≠ '/')).reverse then
          (p.reverse.dropWhile (fun c => c ≠ '/')).reverse ++
            ((p.reverse.takeWhile (fun c => c ≠ '/')).reverse).takeWhile
              (fun c => c ≠ ';')
        else p
      else p.takeWhile (fun c => c ≠ ';') := rfl

/-- The pre-part and the last segment reassemble the path. -/
theorem preSeg_append (p : List Char) :
    (p.reverse.dropWhile (fun c => c ≠ '/')).reverse ++
      (p.reverse.takeWhile (fun c => c ≠ '/')).reverse = p := by
  rw [← List.reverse_append, List.takeWhile_append_dropWhile, List.reverse_reverse]

/-- The last segment contains no slash. -/
theorem seg_no_slash {p : List Char} {x : Char}
    (hx : x ∈ (p.reverse.takeWhile (fun c => c ≠ '/')).reverse) : x ≠ '/' := by
  rw [List.mem_reverse] at hx
  have h2 := List.mem_takeWhile_imp hx
  simpa using h2

/-- When the path contains a slash, the pre-part ends with one. -/
theorem pre_form {p : List Char} (hs : ('/' : Char) ∈ p) :
    ∃ t, p.reverse.dropWhile (fun c => c ≠ '/') = '/' :: t := by
  cases hdw : p.reverse.dropWhile (fun c => c ≠ '/') with
  | nil =>
    rw [List.dropWhile_eq_nil_iff] at hdw
    have h2 := hdw '/' (List.mem_reverse.mpr hs)
    simp at h2
  | cons c t =>
    have hc := dropWhile_head_false hdw
    simp only [decide_eq_false_iff_not, not_not] at hc
    exact ⟨t, by rw [hc]⟩

/-- Computing the last segment of `b ++ a` when `b` ends with a slash and `a`
has none: it is `a` itself. -/
theorem lastSeg_of_append {a b t : List Char}
    (hb : b.reverse = '/' :: t) (ha : ∀ x ∈ a, x ≠ '/') :
    (b ++ a).reverse.takeWhile (fun c => c ≠ '/') = a.reverse := by
  have h1 : ∀ x ∈ a.reverse, (fun c => decide (c ≠ '/')) x = true := by
    intro x hx
    simp only [decide_eq_true_eq]
    exact ha x (List.mem_reverse.mp hx)
  rw [List.reverse_append, hb,
    @List.takeWhile_append_of_pos _ _ a.reverse ('/' :: t) h1,
    List.takeWhile_cons_of_neg (by simp)]
  simp

/-- The params split yields a path on which re-running it is the identity. -/
theorem splitparams_stable (p : List Char) : SplitparamsId (splitparams p) := by
  by_cases hs : ('/' : Char) ∈ p
  · by_cases hsemi : (';' : Char) ∈ (p.reverse.takeWhile (fun c => c ≠ '/')).reverse
    · rw [splitparams_eq, if_pos hs, if_pos hsemi]
      intro _
      obtain ⟨t, ht⟩ := pre_form hs
      have hbrev : ((p.reverse.dropWhile (fun c => c ≠ '/')).reverse).reverse =
          '/' :: t := by rw [List.reverse_reverse, ht]
      have hta : ∀ x ∈ (p.reverse.takeWhile (fun c => c ≠ '/')).reverse.takeWhile
          (fun c => c ≠ ';'), x ≠ '/' := by
        intro x hx
        exact seg_no_slash (List.takeWhile_subset _ hx)
      have hmem : ('/' : Char) ∈ (p.reverse.dropWhile (fun c => c ≠ '/')).reverse ++
          (p.reverse.takeWhile (fun c => c ≠ '/')).reverse.takeWhile (fun c => c ≠ ';') := by
        apply List.mem_append_left
        rw [List.mem_reverse, ht]
        exact List.mem_cons_self _ _
      have hseg : ((p.reverse.dropWhile (fun c => c ≠ '/')).reverse ++
          (p.reverse.takeWhile (fun c => c ≠ '/')).reverse.takeWhile
            (fun c => c ≠ ';')).reverse.takeWhile (fun c => c ≠ '/') =
          ((p.reverse.takeWhile (fun c => c ≠ '/')).reverse.takeWhile
            (fun c => c ≠ ';')).reverse :=
        lastSeg_of_append hbrev hta
      have hnos : (';' : Char) ∉ (((p.reverse.dropWhile (fun c => c ≠ '/')).reverse ++
          (p.reverse.takeWhile (fun c => c ≠ '/')).reverse.takeWhile
            (fun c => c ≠ ';')).reverse.takeWhile (fun c => c ≠ '/')).reverse := by
        rw [hseg, List.reverse_reverse]
        intro hin
        simpa using List.mem_takeWhile_imp hin
      rw [splitparams_eq, if_pos hmem, if_neg hnos]
    · rw [splitparams_eq, if_pos hs, if_neg hsemi]
      intro _
      rw [splitparams_eq, if_pos hs, if_neg hsemi]
  · rw [splitparams_eq, if_neg hs]
    intro hin
    simpa using List.mem_takeWhile_imp hin

/-- A slash-headed suffix of a stable path after a slash-free part is itself
stable. -/
theorem splitparamsId_suffix {p p₁ t : List Char}
    (hid : SplitparamsId p) (hsplit : p = p₁ ++ '/' :: t) :
    SplitparamsId ('/' :: t) := by
  intro hsemi₂
  have hsl : ('/' : Char) ∈ p := by
    rw [hsplit]
    exact List.mem_append_right _ (List.mem_cons_self _ _)
  have hsemi : (';' : Char) ∈ p := by
    rw [hsplit]
    exact List.mem_append_right _ hsemi₂
  have hp := hid hsemi
  have hseg_eq : p.reverse.takeWhile (fun c => c ≠ '/') =
      ('/' :: t).reverse.takeWhile (fun c => c ≠ '/') := by
    rw [hsplit, List.reverse_append]
    apply takeWhile_append_stop
    · rw [List.mem_reverse]
      exact List.mem_cons_self _ _
    · simp
  have hnosemi : (';' : Char) ∉ (p.reverse.takeWhile (fun c => c ≠ '/')).reverse := by
    intro hin
    rw [splitparams_eq, if_pos hsl, if_pos hin] at hp
    have hps := preSeg_append p
    have h3 : (p.reverse.dropWhile (fun c => c ≠ '/')).reverse ++
        (p.reverse.takeWhile (fun c => c ≠ '/')).reverse.takeWhile (fun c => c ≠ ';') =
        (p.reverse.dropWhile (fun c => c ≠ '/')).reverse ++
        (p.reverse.takeWhile (fun c => c ≠ '/')).reverse := hp.trans hps.symm
    have h4 := List.append_cancel_left h3
    have h5 : (';' : Char) ∈ (p.reverse.takeWhile (fun c => c ≠ '/')).reverse.takeWhile
        (fun c => c ≠ ';') := by
      rw [h4]
      exact hin
    simpa using List.mem_takeWhile_imp h5
  have hnosemi2 : (';' : Char) ∉ (('/' :: t).reverse.takeWhile
      (fun c => c ≠ '/')).reverse := by
    rw [← hseg_eq]
    exact hnosemi
  rw [splitparams_eq, if_pos (List.mem_cons_self '/' t), if_neg hnosemi2]

/-- The params split of a slash-headed path is empty or slash-headed. -/
theorem splitparams_head_slash (x : List Char) :
    splitparams ('/' :: x) = [] ∨ ∃ t, splitparams ('/' :: x) = '/' :: t := by
  by_cases hsemi : (';' : Char) ∈ (('/' :: x).reverse.takeWhile (fun c => c ≠ '/')).reverse
  · rw [splitparams_eq, if_pos (List.mem_cons_self _ _), if_pos hsemi]
    right
    have hps := preSeg_append ('/' :: x)
    obtain ⟨t, ht⟩ := pre_form (List.mem_cons_self '/' x)
    cases hpre : (('/' :: x).reverse.dropWhile (fun c => c ≠ '/')).reverse with
    | nil =>
      rw [hpre] at hps
      exfalso
      have h2 : ('/' :: x).reverse.dropWhile (fun c => c ≠ '/') = [] := by
        have := congrArg List.reverse hpre
        simpa using this
      rw [ht] at h2
      cases h2
    | cons a pre' =>
      rw [hpre] at hps
      have ha : a = '/' := by
        have h2 := congrArg (fun l => l.head?) hps
        simpa using h2
      refine ⟨pre' ++ (('/' :: x).reverse.takeWhile (fun c => c ≠ '/')).reverse.takeWhile
        (fun c => c ≠ ';'), ?_⟩
      rw [ha]
      simp
  · rw [splitparams_eq, if_pos (List.mem_cons_self _ _), if_neg hsemi]
    right
    exact ⟨x, rfl⟩

/-- The params split only removes characters. -/
theorem splitparams_subset {p : List Char} {x : Char} (hx : x ∈ splitparams p) :
    x ∈ p := by
  rw [splitparams_eq] at hx
  by_cases hs : ('/' : Char) ∈ p
  · rw [if_pos hs] at hx
    by_cases hsemi : (';' : Char) ∈ (p.reverse.takeWhile (fun c => c ≠ '/')).reverse
    · rw [if_pos hsemi] at hx
      rcases List.mem_append.mp hx with h1 | h2
      · rw [List.mem_reverse] at h1
        have h3 := List.dropWhile_subset _ h1
        rwa [List.mem_reverse] at h3
      · have h3 := List.takeWhile_subset _ h2
        rw [List.mem_reverse] at h3
        have h4 := List.takeWhile_subset _ h3
        rwa [List.mem_reverse] at h4
    · rwa [if_neg hsemi] at hx
  · rw [if_neg hs] at hx
    exact List.takeWhile_subset _ hx

/-! ### Evaluation of `pyUrlparse` and `normList` by netloc outcome -/

theorem pyUrlparse_of_netloc_none {u : List Char}
    (h : splitNetloc (splitScheme u).2 = none) : pyUrlparse u = none := by
  rw [pyUrlparse, h]
  rfl

theorem pyUrlparse_of_netloc {u : List Char} {nn : List Char × List Char}
    (h : splitNetloc (splitScheme u).2 = some nn) :
    pyUrlparse u = some ((splitScheme u).1, nn.1,
      (if String.mk (splitScheme u).1 ∈ uses_params ∧
           (';' : Char) ∈ (splitQuery (dropFrag nn.2)).1
       then splitparams (splitQuery (dropFrag nn.2)).1
       else (splitQuery (dropFrag nn.2)).1),
      (splitQuery (dropFrag nn.2)).2) := by
  rw [pyUrlparse, h]
  rfl

theorem normList_of_parse_none {u : List Char} (h : pyUrlparse u = none) :
    normList u = none := by
  rw [normList, h]
  rfl

theorem normList_of_parse {u s N P Q : List Char}
    (h : pyUrlparse u = some (s, N, P, Q)) :
    normList u =
      some (s ++ (':' :: '/' :: '/' :: N) ++ P ++
        (if Q = [] then [] else '?' :: Q)) := by
  rw [normList, h]
  rfl

theorem normList_none_iff (u : List Char) :
    normList u = none ↔ pyUrlparse u = none := by
  constructor
  · intro h
    cases hc : pyUrlparse u with
    | none => rfl
    | some c =>
      rw [normList, hc] at h
      cases h
  · exact normList_of_parse_none

/-! ### The query-part `?q` (or nothing) appended by `normList` -/

theorem qp_takeWhile_notDelim (q : List Char) :
    (if q = [] then [] else '?' :: q).takeWhile notDelim = [] := by
  by_cases hq0 : q = []
  · rw [if_pos hq0]
    rfl
  · rw [if_neg hq0, List.takeWhile_cons_of_neg (by decide)]

theorem qp_dropWhile_notDelim (q : List Char) :
    (if q = [] then [] else '?' :: q).dropWhile notDelim =
      (if q = [] then [] else '?' :: q) := by
  by_cases hq0 : q = []
  · rw [if_pos hq0]
    rfl
  · rw [if_neg hq0, List.dropWhile_cons_of_neg (by decide)]

theorem qp_dropFrag (q : List Char) (hqh : ('#' : Char) ∉ q) :
    dropFrag (if q = [] then [] else '?' :: q) = (if q = [] then [] else '?' :: q) := by
  apply takeWhile_all
  intro x hx
  simp only [decide_eq_true_eq]
  intro hxh
  subst hxh
  by_cases hq0 : q = []
  · rw [if_pos hq0] at hx
    cases hx
  · rw [if_neg hq0] at hx
    rcases List.mem_cons.mp hx with h2 | h2
    · cases h2
    · exact hqh h2

theorem qp_splitQuery (q : List Char) :
    splitQuery (if q = [] then [] else '?' :: q) = ([], q) := by
  by_cases hq0 : q = []
  · rw [if_pos hq0, hq0]
    rfl
  · rw [if_neg hq0]
    show (('?' :: q).takeWhile (fun c => c ≠ '?'),
      (('?' :: q).dropWhile (fun c => c ≠ '?')).drop 1) = ([], q)
    rw [List.takeWhile_cons_of_neg (by simp), List.dropWhile_cons_of_neg (by simp)]
    rfl

theorem dropFrag_append_qp (P q : List Char) (hP : ('#' : Char) ∉ P)
    (hq : ('#' : Char) ∉ q) :
    dropFrag (P ++ (if q = [] then [] else '?' :: q)) =
      P ++ (if q = [] then [] else '?' :: q) := by
  apply takeWhile_all
  intro x hx
  simp only [decide_eq_true_eq]
  intro hxh
  subst hxh
  rcases List.mem_append.mp hx with h | h
  · exact hP h
  · by_cases hq0 : q = []
    · rw [if_pos hq0] at h
      cases h
    · rw [if_neg hq0] at h
      rcases List.mem_cons.mp h with h2 | h2
      · cases h2
      · exact hq h2

theorem splitQuery_append_qp (P q : List Char) (hP : ('?' : Char) ∉ P) :
    splitQuery (P ++ (if q = [] then [] else '?' :: q)) = (P, q) := by
  have hall : ∀ x ∈ P, (fun c => decide (c ≠ '?')) x = true := by
    intro x hx
    simp only [decide_eq_true_eq]
    intro h
    exact hP (h ▸ hx)
  show ((P ++ _).takeWhile _, ((P ++ _).dropWhile _).drop 1) = (P, q)
  rw [@List.takeWhile_append_of_pos _ _ P _ hall,
    @List.dropWhile_append_of_pos _ _ P _ hall]
  by_cases hq0 : q = []
  · rw [if_pos hq0]
    simp [hq0]
  · rw [if_neg hq0, List.takeWhile_cons_of_neg (by simp),
      List.dropWhile_cons_of_neg (by simp)]
    simp

theorem path_guard_of_stable {s P : List Char}
    (h : String.mk s ∈ uses_params → SplitparamsId P) :
    (if String.mk s ∈ uses_params ∧ (';' : Char) ∈ P then splitparams P else P) = P := by
  by_cases hg : String.mk s ∈ uses_params ∧ (';' : Char) ∈ P
  · rw [if_pos hg]
    exact h hg.1 hg.2
  · rw [if_neg hg]

/-- Main reassembly lemma: a `scheme://netloc path [?query]` string built from
clean components re-normalizes to itself whenever its recomputed netloc passes
`urlsplit`'s validation, and to `none` (the `ValueError`) otherwise. -/
theorem normList_assembled {s n p q : List Char}
    (hvs : validScheme s = true) (hlow : s.map lowerChar = s)
    (hn : ∀ c ∈ n, notDelim c = true)
    (hph : ('#' : Char) ∉ p) (hpq : ('?' : Char) ∉ p) (hqh : ('#' : Char) ∉ q)
    (hnp : n ≠ [] → (p = [] ∨ ∃ t, p = '/' :: t))
    (hpid : String.mk s ∈ uses_params → SplitparamsId p) :
    normList (s ++ ':' :: '/' :: '/' ::
        (n ++ (p ++ (if q = [] then [] else '?' :: q)))) =
      if netlocInvalid (n ++
          (p ++ (if q = [] then [] else '?' :: q)).takeWhile notDelim) = true
      then none
      else some (s ++ ':' :: '/' :: '/' ::
        (n ++ (p ++ (if q = [] then [] else '?' :: q)))) := by
  have hsch := splitScheme_assemble
    ('/' :: '/' :: (n ++ (p ++ (if q = [] then [] else '?' :: q)))) hvs hlow
  have hsch1 : (splitScheme (s ++ ':' :: '/' :: '/' ::
      (n ++ (p ++ (if q = [] then [] else '?' :: q))))).1 = s := by rw [hsch]
  have hsch2 : (splitScheme (s ++ ':' :: '/' :: '/' ::
      (n ++ (p ++ (if q = [] then [] else '?' :: q))))).2 =
      '/' :: '/' :: (n ++ (p ++ (if q = [] then [] else '?' :: q))) := by rw [hsch]
  have hnet := splitNetloc_assemble (p ++ (if q = [] then [] else '?' :: q)) hn
  cases hval : netlocInvalid (n ++
      (p ++ (if q = [] then [] else '?' :: q)).takeWhile notDelim) with
  | true =>
    rw [if_pos rfl]
    have hsv : splitNetloc (splitScheme (s ++ ':' :: '/' :: '/' ::
        (n ++ (p ++ (if q = [] then [] else '?' :: q))))).2 = none := by
      rw [hsch2, hnet, if_pos hval]
    exact normList_of_parse_none (pyUrlparse_of_netloc_none hsv)
  | false =>
    rw [if_neg Bool.false_ne_true]
    have hsv : splitNetloc (splitScheme (s ++ ':' :: '/' :: '/' ::
        (n ++ (p ++ (if q = [] then [] else '?' :: q))))).2 =
        some (n ++ (p ++ (if q = [] then [] else '?' :: q)).takeWhile notDelim,
          (p ++ (if q = [] then [] else '?' :: q)).dropWhile notDelim) := by
      rw [hsch2, hnet, if_neg (by simp [hval])]
    have hpu : pyUrlparse (s ++ ':' :: '/' :: '/' ::
        (n ++ (p ++ (if q = [] then [] else '?' :: q)))) =
        some (s,
          n ++ (p ++ (if q = [] then [] else '?' :: q)).takeWhile notDelim,
          (if String.mk s ∈ uses_params ∧ (';' : Char) ∈
              (splitQuery (dropFrag
                ((p ++ (if q = [] then [] else '?' :: q)).dropWhile notDelim))).1
           then splitparams (splitQuery (dropFrag
                ((p ++ (if q = [] then [] else '?' :: q)).dropWhile notDelim))).1
           else (splitQuery (dropFrag
                ((p ++ (if q = [] then [] else '?' :: q)).dropWhile notDelim))).1),
          (splitQuery (dropFrag
            ((p ++ (if q = [] then [] else '?' :: q)).dropWhile notDelim))).2) := by
      have h0 := pyUrlparse_of_netloc hsv
      rw [hsch1] at h0
      exact h0
    cases p with
    | nil =>
      have htw : (([] : List Char) ++
          (if q = [] then [] else '?' :: q)).takeWhile notDelim = [] := by
        rw [List.nil_append]
        exact qp_takeWhile_notDelim q
      have hdw : (([] : List Char) ++
          (if q = [] then [] else '?' :: q)).dropWhile notDelim =
          (if q = [] then [] else '?' :: q) := by
        rw [List.nil_append]
        exact qp_dropWhile_notDelim q
      have hfrag := qp_dropFrag q hqh
      have hsq := qp_splitQuery q
      have hQval : (splitQuery (dropFrag ((([] : List Char) ++
          (if q = [] then [] else '?' :: q)).dropWhile notDelim))).2 = q := by
        rw [hdw, hfrag, hsq]
      have hPval : (if String.mk s ∈ uses_params ∧ (';' : Char) ∈
            (splitQuery (dropFrag ((([] : List Char) ++
              (if q = [] then [] else '?' :: q)).dropWhile notDelim))).1
          then splitparams (splitQuery (dropFrag ((([] : List Char) ++
              (if q = [] then [] else '?' :: q)).dropWhile notDelim))).1
          else (splitQuery (dropFrag ((([] : List Char) ++
              (if q = [] then [] else '?' :: q)).dropWhile notDelim))).1) = [] := by
        rw [hdw, hfrag, hsq]
        show (if String.mk s ∈ uses_params ∧ (';' : Char) ∈ ([] : List Char) then
            splitparams ([] : List Char) else ([] : List Char)) = []
        rw [if_neg (fun h => absurd h.2 (List.not_mem_nil _))]
      rw [htw, hPval, hQval] at hpu
      rw [normList_of_parse hpu]
      simp
    | cons c p₀ =>
      by_cases hc : c = '/'
      · subst hc
        have htw : (('/' :: p₀) ++
            (if q = [] then [] else '?' :: q)).takeWhile notDelim = [] := by
          rw [List.cons_append, List.takeWhile_cons_of_neg (by decide)]
        have hdw : (('/' :: p₀) ++
            (if q = [] then [] else '?' :: q)).dropWhile notDelim =
            ('/' :: p₀) ++ (if q = [] then [] else '?' :: q) := by
          rw [List.cons_append, List.dropWhile_cons_of_neg (by decide)]
        have hfrag := dropFrag_append_qp ('/' :: p₀) q hph hqh
        have hsq := splitQuery_append_qp ('/' :: p₀) q hpq
        have hQval : (splitQuery (dropFrag ((('/' :: p₀) ++
            (if q = [] then [] else '?' :: q)).dropWhile notDelim))).2 = q := by
          rw [hdw, hfrag, hsq]
        have hPval : (if String.mk s ∈ uses_params ∧ (';' : Char) ∈
              (splitQuery (dropFrag ((('/' :: p₀) ++
                (if q = [] then [] else '?' :: q)).dropWhile notDelim))).1
            then splitparams (splitQuery (dropFrag ((('/' :: p₀) ++
                (if q = [] then [] else '?' :: q)).dropWhile notDelim))).1
            else (splitQuery (dropFrag ((('/' :: p₀) ++
                (if q = [] then [] else '?' :: q)).dropWhile notDelim))).1) =
            '/' :: p₀ := by
          rw [hdw, hfrag, hsq]
          show (if String.mk s ∈ uses_params ∧ (';' : Char) ∈ ('/' :: p₀) then
              splitparams ('/' :: p₀) else ('/' :: p₀)) = '/' :: p₀
          exact path_guard_of_stable hpid
        rw [htw, hPval, hQval] at hpu
        rw [normList_of_parse hpu]
        simp
      · have hn0 : n = [] := by
          by_contra hne
          rcases hnp hne with h | ⟨t, ht⟩
          · cases h
          · injection ht with h1 _
            exact hc h1
        subst hn0
        cases hdwp : (c :: p₀).dropWhile notDelim with
        | nil =>
          have hall : ∀ x ∈ (c :: p₀), notDelim x = true :=
            List.dropWhile_eq_nil_iff.mp hdwp
          have htw : ((c :: p₀) ++
              (if q = [] then [] else '?' :: q)).takeWhile notDelim = c :: p₀ := by
            rw [@List.takeWhile_append_of_pos _ notDelim (c :: p₀) _ hall,
              qp_takeWhile_notDelim, List.append_nil]
          have hdw : ((c :: p₀) ++
              (if q = [] then [] else '?' :: q)).dropWhile notDelim =
              (if q = [] then [] else '?' :: q) := by
            rw [@List.dropWhile_append_of_pos _ notDelim (c :: p₀) _ hall,
              qp_dropWhile_notDelim]
          have hfrag := qp_dropFrag q hqh
          have hsq := qp_splitQuery q
          have hQval : (splitQuery (dropFrag (((c :: p₀) ++
              (if q = [] then [] else '?' :: q)).dropWhile notDelim))).2 = q := by
            rw [hdw, hfrag, hsq]
          have hPval : (if String.mk s ∈ uses_params ∧ (';' : Char) ∈
                (splitQuery (dropFrag (((c :: p₀) ++
                  (if q = [] then [] else '?' :: q)).dropWhile notDelim))).1
              then splitparams (splitQuery (dropFrag (((c :: p₀) ++
                  (if q = [] then [] else '?' :: q)).dropWhile notDelim))).1
              else (splitQuery (dropFrag (((c :: p₀) ++
                  (if q = [] then [] else '?' :: q)).dropWhile notDelim))).1) = [] := by
            rw [hdw, hfrag, hsq]
            show (if String.mk s ∈ uses_params ∧ (';' : Char) ∈ ([] : List Char) then
                splitparams ([] : List Char) else ([] : List Char)) = []
            rw [if_neg (fun h => absurd h.2 (List.not_mem_nil _))]
          rw [htw, hPval, hQval] at hpu
          rw [normList_of_parse hpu]
          simp
        | cons d t₂ =>
          have hd := dropWhile_head_false hdwp
          have hdin : d ∈ (c :: p₀) :=
            List.dropWhile_subset _ (by rw [hdwp]; exact List.mem_cons_self _ _)
          have hd' : d = '/' := by
            rcases notDelim_false_cases hd with h | h | h
            · exact h
            · exact absurd (h ▸ hdin) hpq
            · exact absurd (h ▸ hdin) hph
          subst hd'
          have hsub2 : ∀ x ∈ ('/' :: t₂ : List Char), x ∈ (c :: p₀) := by
            intro x hx
            exact List.dropWhile_subset _ (hdwp.symm ▸ hx)
          have hph₂ : ('#' : Char) ∉ ('/' :: t₂ : List Char) :=
            fun h => hph (hsub2 _ h)
          have hpq₂ : ('?' : Char) ∉ ('/' :: t₂ : List Char) :=
            fun h => hpq (hsub2 _ h)
          have htw : ((c :: p₀) ++
              (if q = [] then [] else '?' :: q)).takeWhile notDelim =
              (c :: p₀).takeWhile notDelim :=
            takeWhile_append_stop _ hdin hd
          have hdw : ((c :: p₀) ++
              (if q = [] then [] else '?' :: q)).dropWhile notDelim =
              ('/' :: t₂) ++ (if q = [] then [] else '?' :: q) := by
            rw [dropWhile_append_stop _ hdin hd, hdwp]
          have hsplit : (c :: p₀ : List Char) =
              (c :: p₀).takeWhile notDelim ++ '/' :: t₂ := by
            conv_lhs => rw [← List.takeWhile_append_dropWhile notDelim (c :: p₀)]
            rw [hdwp]
          have hfrag := dropFrag_append_qp ('/' :: t₂) q hph₂ hqh
          have hsq := splitQuery_append_qp ('/' :: t₂) q hpq₂
          have hstable : String.mk s ∈ uses_params → SplitparamsId ('/' :: t₂) :=
            fun hu => splitparamsId_suffix (hpid hu) hsplit
          have hQval : (splitQuery (dropFrag (((c :: p₀) ++
              (if q = [] then [] else '?' :: q)).dropWhile notDelim))).2 = q := by
            rw [hdw, hfrag, hsq]
          have hPval : (if String.mk s ∈ uses_params ∧ (';' : Char) ∈
                (splitQuery (dropFrag (((c :: p₀) ++
                  (if q = [] then [] else '?' :: q)).dropWhile notDelim))).1
              then splitparams (splitQuery (dropFrag (((c :: p₀) ++
                  (if q = [] then [] else '?' :: q)).dropWhile notDelim))).1
              else (splitQuery (dropFrag (((c :: p₀) ++
                  (if q = [] then [] else '?' :: q)).dropWhile notDelim))).1) =
              '/' :: t₂ := by
            rw [hdw, hfrag, hsq]
            show (if String.mk s ∈ uses_params ∧ (';' : Char) ∈ ('/' :: t₂ : List Char) then
                splitparams ('/' :: t₂ : List Char) else ('/' :: t₂ : List Char)) = '/' :: t₂
            exact path_guard_of_stable hstable
          rw [htw, hPval, hQval] at hpu
          rw [normList_of_parse hpu]
          conv_rhs => rw [hsplit]
          simp

/-! ### More list helpers -/

theorem takeWhile_lt_of_fail {α : Type} {p : α → Bool} {l : List α} {x : α}
    (hx : x ∈ l) (hpx : p x = false) : (l.takeWhile p).length < l.length := by
  induction l with
  | nil => cases hx
  | cons c l ih =>
    by_cases hc : p c
    · rcases List.mem_cons.mp hx with rfl | hx'
      · simp [hc] at hpx
      · rw [List.takeWhile_cons_of_pos hc]
        simp only [List.length_cons]
        exact Nat.succ_lt_succ (ih hx')
    · rw [List.takeWhile_cons_of_neg hc]
      simp

theorem exists_fail_of_takeWhile_lt {α : Type} {p : α → Bool} {l : List α}
    (h : (l.takeWhile p).length < l.length) : ∃ x ∈ l, p x = false := by
  by_contra hc
  push_neg at hc
  have hall : ∀ x ∈ l, p x = true := by
    intro x hx
    cases hpx : p x
    · exact absurd hpx (hc x hx)
    · rfl
  rw [takeWhile_all hall] at h
  exact Nat.lt_irrefl _ h

theorem takeWhile_append_cons_fail {α : Type} {p : α → Bool} (a : List α) {x : α}
    (b : List α) (hpx : p x = false) :
    (a ++ x :: b).takeWhile p = a.takeWhile p := by
  induction a with
  | nil =>
    rw [List.nil_append, List.takeWhile_cons_of_neg (by rw [hpx]; exact Bool.false_ne_true)]
    rfl
  | cons c a ih =>
    by_cases hc : p c
    · rw [List.cons_append, List.takeWhile_cons_of_pos hc,
        List.takeWhile_cons_of_pos hc, ih]
    · rw [List.cons_append, List.takeWhile_cons_of_neg hc,
        List.takeWhile_cons_of_neg hc]

theorem dropWhile_append_cons_fail {α : Type} {p : α → Bool} (a : List α) {x : α}
    (b : List α) (hpx : p x = false) :
    (a ++ x :: b).dropWhile p = a.dropWhile p ++ x :: b := by
  induction a with
  | nil =>
    rw [List.nil_append, List.dropWhile_cons_of_neg (by rw [hpx]; exact Bool.false_ne_true)]
    rfl
  | cons c a ih =>
    by_cases hc : p c
    · rw [List.cons_append, List.dropWhile_cons_of_pos hc,
        List.dropWhile_cons_of_pos hc, ih]
    · rw [List.cons_append, List.dropWhile_cons_of_neg hc,
        List.dropWhile_cons_of_neg hc, List.cons_append]

/-! ### The components produced by `pyUrlparse` are clean -/

theorem splitScheme_cases (u : List Char) :
    splitScheme u = ([], u) ∨
      (splitScheme u = ((u.takeWhile (fun c => c ≠ ':')).map lowerChar,
        u.drop ((u.takeWhile (fun c => c ≠ ':')).length + 1)) ∧
       validScheme (u.takeWhile (fun c => c ≠ ':')) = true) := by
  by_cases h : (u.takeWhile (fun c => c ≠ ':')).length < u.length ∧
      validScheme (u.takeWhile (fun c => c ≠ ':')) = true
  · right
    refine ⟨?_, h.2⟩
    simp only [splitScheme]
    rw [if_pos h]
  · left
    simp only [splitScheme]
    rw [if_neg h]

theorem scheme_facts (u : List Char) (hne : (splitScheme u).1 ≠ []) :
    validScheme (splitScheme u).1 = true ∧
      (splitScheme u).1.map lowerChar = (splitScheme u).1 := by
  rcases splitScheme_cases u with h | ⟨h, hv⟩
  · exfalso
    apply hne
    rw [h]
  · have h1 : (splitScheme u).1 = (u.takeWhile (fun c => c ≠ ':')).map lowerChar := by
      rw [h]
    rw [h1]
    exact ⟨validScheme_map_lower hv, map_lowerChar_idem _⟩

theorem splitScheme_snd_subset (u : List Char) :
    ∀ x ∈ (splitScheme u).2, x ∈ u := by
  rcases splitScheme_cases u with h | ⟨h, _⟩
  · have h1 : (splitScheme u).2 = u := by rw [h]
    rw [h1]
    intro x hx
    exact hx
  · have h1 : (splitScheme u).2 =
        u.drop ((u.takeWhile (fun c => c ≠ ':')).length + 1) := by rw [h]
    rw [h1]
    intro x hx
    exact List.drop_subset _ u hx

theorem lowerChar_good {c : Char} (h : c ≠ '[' ∧ c ≠ ']' ∧ c.toNat < 128) :
    lowerChar c ≠ '[' ∧ lowerChar c ≠ ']' ∧ (lowerChar c).toNat < 128 := by
  by_cases hu : isUpperA c = true
  · have ht := toNat_lowerChar_of_upper c hu
    have hrange : 65 ≤ c.toNat ∧ c.toNat ≤ 90 := by
      simp only [isUpperA, Bool.and_eq_true, decide_eq_true_eq] at hu
      exact hu
    refine ⟨?_, ?_, ?_⟩
    · intro he
      have h91 : (lowerChar c).toNat = 91 := by rw [he]; rfl
      omega
    · intro he
      have h93 : (lowerChar c).toNat = 93 := by rw [he]; rfl
      omega
    · omega
  · rw [lowerChar_of_not_upper c hu]
    exact h

theorem splitScheme_fst_good (u : List Char)
    (hgood : ∀ c ∈ u, c ≠ '[' ∧ c ≠ ']' ∧ c.toNat < 128) :
    ∀ c ∈ (splitScheme u).1, c ≠ '[' ∧ c ≠ ']' ∧ c.toNat < 128 := by
  rcases splitScheme_cases u with h | ⟨h, _⟩
  · have h1 : (splitScheme u).1 = [] := by rw [h]
    rw [h1]
    intro c hc
    cases hc
  · have h1 : (splitScheme u).1 = (u.takeWhile (fun c => c ≠ ':')).map lowerChar := by
      rw [h]
    rw [h1]
    intro c hc
    obtain ⟨y, hy, rfl⟩ := List.mem_map.mp hc
    exact lowerChar_good (hgood y (List.takeWhile_subset _ hy))

theorem p0_facts (v : List Char) {x : Char}
    (hx : x ∈ (splitQuery (dropFrag v)).1) :
    x ≠ '#' ∧ x ≠ '?' := by
  have hq' : x ≠ '?' := by
    have h2 := List.mem_takeWhile_imp hx
    simpa using h2
  have hx2 : x ∈ dropFrag v :=
    List.takeWhile_subset _ hx
  have hh : x ≠ '#' := by
    have h3 := List.mem_takeWhile_imp hx2
    simpa using h3
  exact ⟨hh, hq'⟩

theorem path_facts (s0 v : List Char) {x : Char}
    (hx : x ∈ (if String.mk s0 ∈ uses_params ∧
        (';' : Char) ∈ (splitQuery (dropFrag v)).1
      then splitparams (splitQuery (dropFrag v)).1
      else (splitQuery (dropFrag v)).1)) : x ≠ '#' ∧ x ≠ '?' := by
  by_cases hg : String.mk s0 ∈ uses_params ∧
      (';' : Char) ∈ (splitQuery (dropFrag v)).1
  · rw [if_pos hg] at hx
    exact p0_facts v (splitparams_subset hx)
  · rw [if_neg hg] at hx
    exact p0_facts v hx

theorem query_facts (v : List Char) {x : Char}
    (hx : x ∈ (splitQuery (dropFrag v)).2) : x ≠ '#' := by
  have h2 : x ∈ (dropFrag v).dropWhile
      (fun c => c ≠ '?') := List.drop_subset _ _ hx
  have h3 := List.dropWhile_subset _ h2
  have h4 := List.mem_takeWhile_imp h3
  simpa using h4

theorem netloc_path_facts (s0 v : List Char)
    (hrest : v = [] ∨ ∃ c t, v = c :: t ∧ notDelim c = false) :
    (if String.mk s0 ∈ uses_params ∧
        (';' : Char) ∈ (splitQuery (dropFrag v)).1
      then splitparams (splitQuery (dropFrag v)).1
      else (splitQuery (dropFrag v)).1) = [] ∨
    ∃ t, (if String.mk s0 ∈ uses_params ∧
        (';' : Char) ∈ (splitQuery (dropFrag v)).1
      then splitparams (splitQuery (dropFrag v)).1
      else (splitQuery (dropFrag v)).1) = '/' :: t := by
  rcases hrest with h | ⟨c, t, hct, hcf⟩
  · left
    have h1 : (splitQuery (dropFrag v)).1 = [] := by
      rw [h]
      rfl
    rw [h1, if_neg (fun hg => absurd hg.2 (List.not_mem_nil _))]
  · rcases notDelim_false_cases hcf with rfl | rfl | rfl
    · have h1 : dropFrag v =
          '/' :: t.takeWhile (fun c => c ≠ '#') := by
        rw [hct]
        show ('/' :: t).takeWhile (fun c => c ≠ '#') = _
        rw [List.takeWhile_cons_of_pos (by decide)]
      have h2 : (splitQuery (dropFrag v)).1 =
          '/' :: (t.takeWhile (fun c => c ≠ '#')).takeWhile (fun c => c ≠ '?') := by
        rw [h1]
        show ('/' :: _).takeWhile (fun c => c ≠ '?') = _
        rw [List.takeWhile_cons_of_pos (by decide)]
      rw [h2]
      by_cases hg : String.mk s0 ∈ uses_params ∧
          (';' : Char) ∈ ('/' :: (t.takeWhile (fun c => c ≠ '#')).takeWhile
            (fun c => c ≠ '?'))
      · rw [if_pos hg]
        exact splitparams_head_slash _
      · rw [if_neg hg]
        right
        exact ⟨_, rfl⟩
    · left
      have h1 : dropFrag v =
          '?' :: t.takeWhile (fun c => c ≠ '#') := by
        rw [hct]
        show ('?' :: t).takeWhile (fun c => c ≠ '#') = _
        rw [List.takeWhile_cons_of_pos (by decide)]
      have h2 : (splitQuery (dropFrag v)).1 = [] := by
        rw [h1]
        show ('?' :: t.takeWhile (fun c => c ≠ '#')).takeWhile (fun c => c ≠ '?') = []
        rw [List.takeWhile_cons_of_neg (by simp)]
      rw [h2, if_neg (fun hg => absurd hg.2 (List.not_mem_nil _))]
    · left
      have h1 : dropFrag v = [] := by
        rw [hct]
        show ('#' :: t).takeWhile (fun c => c ≠ '#') = _
        rw [List.takeWhile_cons_of_neg (by simp)]
      have h2 : (splitQuery (dropFrag v)).1 = [] := by
        rw [h1]
        rfl
      rw [h2, if_neg (fun hg => absurd hg.2 (List.not_mem_nil _))]

theorem path_stable_facts (s0 v : List Char)
    (hu : String.mk s0 ∈ uses_params) :
    SplitparamsId (if String.mk s0 ∈ uses_params ∧
        (';' : Char) ∈ (splitQuery (dropFrag v)).1
      then splitparams (splitQuery (dropFrag v)).1
      else (splitQuery (dropFrag v)).1) := by
  by_cases hg : String.mk s0 ∈ uses_params ∧
      (';' : Char) ∈ (splitQuery (dropFrag v)).1
  · rw [if_pos hg]
    exact splitparams_stable _
  · rw [if_neg hg]
    intro hmem
    exact absurd ⟨hu, hmem⟩ hg

/-! ### Goodness: ASCII bracket-free characters survive the pipeline -/

theorem netlocInvalid_false_of_good {n : List Char}
    (h : ∀ c ∈ n, c ≠ '[' ∧ c ≠ ']' ∧ c.toNat < 128) :
    netlocInvalid n = false := by
  have h1 : decide (('[' : Char) ∈ n) = false := by
    rw [decide_eq_false_iff_not]
    intro hmem
    exact (h _ hmem).1 rfl
  have h2 : decide ((']' : Char) ∈ n) = false := by
    rw [decide_eq_false_iff_not]
    intro hmem
    exact (h _ hmem).2.1 rfl
  have h3 : (n.all fun c => decide (c.toNat < 128)) = true := by
    rw [List.all_eq_true]
    intro x hx
    simp [(h x hx).2.2]
  rw [netlocInvalid, h1, h2, h3]
  rfl

theorem splitNetloc_isSome_of_good {w : List Char}
    (h : ∀ c ∈ w, c ≠ '[' ∧ c ≠ ']' ∧ c.toNat < 128) :
    ∃ nn, splitNetloc w = some nn := by
  rw [splitNetloc]
  by_cases h2 : w.take 2 = ['/', '/']
  · rw [if_pos h2]
    have hval : netlocInvalid ((w.drop 2).takeWhile notDelim) = false :=
      netlocInvalid_false_of_good (fun c hc =>
        h c (List.drop_subset 2 w (List.takeWhile_subset _ hc)))
    rw [if_neg (by simp [hval])]
    exact ⟨_, rfl⟩
  · rw [if_neg h2]
    exact ⟨_, rfl⟩

theorem pyUrlparse_none_elim {u : List Char} (h : pyUrlparse u = none) :
    splitNetloc (splitScheme u).2 = none := by
  cases hnn : splitNetloc (splitScheme u).2 with
  | none => rfl
  | some nn =>
    rw [pyUrlparse_of_netloc hnn] at h
    cases h

/-! ### Stability of `normList` on scheme-bearing locators

The assembled output of a successful parse re-normalizes to itself whenever
its recomputed netloc passes the validation again, and to `none` otherwise;
on bracket-free ASCII input the validation always passes, giving full
idempotence. -/

theorem append_shape (a b c d : List Char) :
    a ++ (':' :: '/' :: '/' :: b) ++ c ++ d =
      a ++ ':' :: '/' :: '/' :: (b ++ (c ++ d)) := by
  simp only [List.append_assoc, List.cons_append]

theorem normList_stable {u v : List Char} (hs : (splitScheme u).1 ≠ [])
    (hv : normList u = some v) :
    normList v = none ∨ normList v = some v := by
  cases hnn : splitNetloc (splitScheme u).2 with
  | none =>
    rw [normList_of_parse_none (pyUrlparse_of_netloc_none hnn)] at hv
    cases hv
  | some nn =>
    have hpu := pyUrlparse_of_netloc hnn
    rw [normList_of_parse hpu] at hv
    have hveq : v = (splitScheme u).1 ++ ':' :: '/' :: '/' :: (nn.1 ++
        ((if String.mk (splitScheme u).1 ∈ uses_params ∧
            (';' : Char) ∈ (splitQuery (dropFrag nn.2)).1
          then splitparams (splitQuery (dropFrag nn.2)).1
          else (splitQuery (dropFrag nn.2)).1) ++
         (if (splitQuery (dropFrag nn.2)).2 = [] then []
          else '?' :: (splitQuery (dropFrag nn.2)).2))) := by
      rw [← Option.some.inj hv, append_shape]
    obtain ⟨hvs, hlow⟩ := scheme_facts u hs
    have hn : ∀ c ∈ nn.1, notDelim c = true := (splitNetloc_some_elim hnn).2.1
    have hph : ('#' : Char) ∉ (if String.mk (splitScheme u).1 ∈ uses_params ∧
        (';' : Char) ∈ (splitQuery (dropFrag nn.2)).1
      then splitparams (splitQuery (dropFrag nn.2)).1
      else (splitQuery (dropFrag nn.2)).1) :=
      fun hmem => (path_facts (splitScheme u).1 nn.2 hmem).1 rfl
    have hpq : ('?' : Char) ∉ (if String.mk (splitScheme u).1 ∈ uses_params ∧
        (';' : Char) ∈ (splitQuery (dropFrag nn.2)).1
      then splitparams (splitQuery (dropFrag nn.2)).1
      else (splitQuery (dropFrag nn.2)).1) :=
      fun hmem => (path_facts (splitScheme u).1 nn.2 hmem).2 rfl
    have hqh : ('#' : Char) ∉ (splitQuery (dropFrag nn.2)).2 :=
      fun hmem => query_facts nn.2 hmem rfl
    have hnp : nn.1 ≠ [] →
        ((if String.mk (splitScheme u).1 ∈ uses_params ∧
            (';' : Char) ∈ (splitQuery (dropFrag nn.2)).1
          then splitparams (splitQuery (dropFrag nn.2)).1
          else (splitQuery (dropFrag nn.2)).1) = [] ∨
         ∃ t, (if String.mk (splitScheme u).1 ∈ uses_params ∧
            (';' : Char) ∈ (splitQuery (dropFrag nn.2)).1
          then splitparams (splitQuery (dropFrag nn.2)).1
          else (splitQuery (dropFrag nn.2)).1) = '/' :: t) := by
      intro hne1
      have hrest2 := (splitNetloc_some_elim hnn).2.2.2.2 hne1
      have hrest : nn.2 = [] ∨ ∃ c t, nn.2 = c :: t ∧ notDelim c = false := by
        rw [hrest2]
        cases hdw : ((splitScheme u).2.drop 2).dropWhile notDelim with
        | nil => exact Or.inl rfl
        | cons c t => exact Or.inr ⟨c, t, rfl, dropWhile_head_false hdw⟩
      exact netloc_path_facts (splitScheme u).1 nn.2 hrest
    have hpid : String.mk (splitScheme u).1 ∈ uses_params →
        SplitparamsId (if String.mk (splitScheme u).1 ∈ uses_params ∧
            (';' : Char) ∈ (splitQuery (dropFrag nn.2)).1
          then splitparams (splitQuery (dropFrag nn.2)).1
          else (splitQuery (dropFrag nn.2)).1) :=
      fun hu => path_stable_facts (splitScheme u).1 nn.2 hu
    have hasm := normList_assembled hvs hlow hn hph hpq hqh hnp hpid
    rw [hveq, hasm]
    by_cases hval : netlocInvalid (nn.1 ++
        ((if String.mk (splitScheme u).1 ∈ uses_params ∧
            (';' : Char) ∈ (splitQuery (dropFrag nn.2)).1
          then splitparams (splitQuery (dropFrag nn.2)).1
          else (splitQuery (dropFrag nn.2)).1) ++
         (if (splitQuery (dropFrag nn.2)).2 = [] then []
          else '?' :: (splitQuery (dropFrag nn.2)).2)).takeWhile notDelim) = true
    · rw [if_pos hval]
      exact Or.inl rfl
    · rw [if_neg hval]
      exact Or.inr rfl

theorem normList_good {u : List Char} (hs : (splitScheme u).1 ≠ [])
    (hgood : ∀ c ∈ u, c ≠ '[' ∧ c ≠ ']' ∧ c.toNat < 128) :
    ∃ v, normList u = some v ∧ normList v = some v := by
  have hgood2 : ∀ c ∈ (splitScheme u).2, c ≠ '[' ∧ c ≠ ']' ∧ c.toNat < 128 :=
    fun c hc => hgood c (splitScheme_snd_subset u c hc)
  obtain ⟨nn, hnn⟩ := splitNetloc_isSome_of_good hgood2
  have hpu := pyUrlparse_of_netloc hnn
  have hnl := normList_of_parse hpu
  refine ⟨_, hnl, ?_⟩
  rcases normList_stable hs hnl with hnone | hsome
  · exfalso
    have helim := splitNetloc_some_elim hnn
    have hp_sub : ∀ x ∈ (splitQuery (dropFrag nn.2)).1, x ∈ nn.2 := by
      intro x hx
      exact List.takeWhile_subset _ (List.takeWhile_subset _ hx)
    have hq_sub : ∀ x ∈ (splitQuery (dropFrag nn.2)).2, x ∈ nn.2 := by
      intro x hx
      have h2 : x ∈ (dropFrag nn.2).dropWhile (fun c => c ≠ '?') :=
        List.drop_subset _ _ hx
      exact List.takeWhile_subset _ (List.dropWhile_subset _ h2)
    have hP_sub : ∀ x ∈ (if String.mk (splitScheme u).1 ∈ uses_params ∧
          (';' : Char) ∈ (splitQuery (dropFrag nn.2)).1
        then splitparams (splitQuery (dropFrag nn.2)).1
        else (splitQuery (dropFrag nn.2)).1), x ∈ nn.2 := by
      intro x hx
      by_cases hg : String.mk (splitScheme u).1 ∈ uses_params ∧
          (';' : Char) ∈ (splitQuery (dropFrag nn.2)).1
      · rw [if_pos hg] at hx
        exact hp_sub x (splitparams_subset hx)
      · rw [if_neg hg] at hx
        exact hp_sub x hx
    have hgood_v : ∀ x ∈ (splitScheme u).1 ++ (':' :: '/' :: '/' :: nn.1) ++
        (if String.mk (splitScheme u).1 ∈ uses_params ∧
            (';' : Char) ∈ (splitQuery (dropFrag nn.2)).1
          then splitparams (splitQuery (dropFrag nn.2)).1
          else (splitQuery (dropFrag nn.2)).1) ++
        (if (splitQuery (dropFrag nn.2)).2 = [] then []
          else '?' :: (splitQuery (dropFrag nn.2)).2),
        x ≠ '[' ∧ x ≠ ']' ∧ x.toNat < 128 := by
      intro x hx
      rcases List.mem_append.mp hx with hx1 | hxq
      · rcases List.mem_append.mp hx1 with hx2 | hxP
        · rcases List.mem_append.mp hx2 with hxs | hxn
          · exact splitScheme_fst_good u hgood x hxs
          · rcases List.mem_cons.mp hxn with rfl | hxn
            · exact ⟨by decide, by decide, by decide⟩
            · rcases List.mem_cons.mp hxn with rfl | hxn
              · exact ⟨by decide, by decide, by decide⟩
              · rcases List.mem_cons.mp hxn with rfl | hxn
                · exact ⟨by decide, by decide, by decide⟩
                · exact hgood2 x (helim.2.2.1 x hxn)
        · exact hgood2 x (helim.2.2.2.1 x (hP_sub x hxP))
      · by_cases hq0 : (splitQuery (dropFrag nn.2)).2 = []
        · rw [if_pos hq0] at hxq
          cases hxq
        · rw [if_neg hq0] at hxq
          rcases List.mem_cons.mp hxq with rfl | hxq
          · exact ⟨by decide, by decide, by decide⟩
          · exact hgood2 x (helim.2.2.2.1 x (hq_sub x hxq))
    have hpn := pyUrlparse_none_elim ((normList_none_iff _).mp hnone)
    have hgood_v2 : ∀ c ∈ (splitScheme ((splitScheme u).1 ++
        (':' :: '/' :: '/' :: nn.1) ++
        (if String.mk (splitScheme u).1 ∈ uses_params ∧
            (';' : Char) ∈ (splitQuery (dropFrag nn.2)).1
          then splitparams (splitQuery (dropFrag nn.2)).1
          else (splitQuery (dropFrag nn.2)).1) ++
        (if (splitQuery (dropFrag nn.2)).2 = [] then []
          else '?' :: (splitQuery (dropFrag nn.2)).2))).2,
        c ≠ '[' ∧ c ≠ ']' ∧ c.toNat < 128 :=
      fun c hc => hgood_v c (splitScheme_snd_subset _ c hc)
    obtain ⟨nn2, hnn2⟩ := splitNetloc_isSome_of_good hgood_v2
    rw [hpn] at hnn2
    cases hnn2
  · exact hsome

/-- A successful `normalize_url` is a successful `normList` on the character
lists. -/
theorem normalize_url_some_elim {s v : String}
    (h : normalize_url s = some v) : normList s.data = some v.data := by
  rw [normalize_url] at h
  cases hnl : normList s.data with
  | none =>
    rw [hnl] at h
    simp at h
  | some l =>
    rw [hnl] at h
    simp only [Option.map_some'] at h
    rw [← Option.some.inj h]

/-! ### Appending a fragment does not change the normalization -/

theorem splitScheme_frag (ul fl : List Char) :
    splitScheme (ul ++ '#' :: fl) =
      ((splitScheme ul).1, (splitScheme ul).2 ++ '#' :: fl) := by
  by_cases hlt : (ul.takeWhile (fun c => c ≠ ':')).length < ul.length
  · obtain ⟨x, hx, hpx⟩ := exists_fail_of_takeWhile_lt hlt
    have hpre : (ul ++ '#' :: fl).takeWhile (fun c => c ≠ ':') =
        ul.takeWhile (fun c => c ≠ ':') :=
      takeWhile_append_stop _ hx hpx
    by_cases hv : validScheme (ul.takeWhile (fun c => c ≠ ':')) = true
    · have hlen2 : (ul.takeWhile (fun c => c ≠ ':')).length <
          (ul ++ '#' :: fl).length := by
        rw [List.length_append]
        omega
      have hL : splitScheme (ul ++ '#' :: fl) =
          ((ul.takeWhile (fun c => c ≠ ':')).map lowerChar,
           (ul ++ '#' :: fl).drop ((ul.takeWhile (fun c => c ≠ ':')).length + 1)) := by
        simp only [splitScheme]
        rw [hpre, if_pos ⟨hlen2, hv⟩]
      have hR : splitScheme ul =
          ((ul.takeWhile (fun c => c ≠ ':')).map lowerChar,
           ul.drop ((ul.takeWhile (fun c => c ≠ ':')).length + 1)) := by
        simp only [splitScheme]
        rw [if_pos ⟨hlt, hv⟩]
      rw [hL, hR, drop_append_le (by omega)]
    · have hng : ¬ ((ul.takeWhile (fun c => c ≠ ':')).length <
          (ul ++ '#' :: fl).length ∧
          validScheme (ul.takeWhile (fun c => c ≠ ':')) = true) :=
        fun hcon => hv hcon.2
      have hL : splitScheme (ul ++ '#' :: fl) = ([], ul ++ '#' :: fl) := by
        simp only [splitScheme]
        rw [hpre, if_neg hng]
      have hR : splitScheme ul = ([], ul) := by
        simp only [splitScheme]
        rw [if_neg (fun hcon => hv hcon.2)]
      rw [hL, hR]
  · have hall : ∀ x ∈ ul, (fun c => decide (c ≠ ':')) x = true := by
      intro x hx
      cases hpx : (fun c => decide (c ≠ ':')) x
      · exact absurd (takeWhile_lt_of_fail hx hpx) hlt
      · rfl
    have hpre : (ul ++ '#' :: fl).takeWhile (fun c => c ≠ ':') =
        ul ++ '#' :: fl.takeWhile (fun c => c ≠ ':') := by
      rw [@List.takeWhile_append_of_pos _ _ ul ('#' :: fl) hall,
        List.takeWhile_cons_of_pos (by decide)]
    have hng : ¬ ((ul ++ '#' :: fl.takeWhile (fun c => c ≠ ':')).length <
        (ul ++ '#' :: fl).length ∧
        validScheme (ul ++ '#' :: fl.takeWhile (fun c => c ≠ ':')) = true) := by
      intro hcon
      have h2 := validScheme_all hcon.2
      have h3 := List.all_eq_true.mp h2 '#'
        (List.mem_append_right _ (List.mem_cons_self _ _))
      exact absurd h3 (by decide)
    have hL : splitScheme (ul ++ '#' :: fl) = ([], ul ++ '#' :: fl) := by
      simp only [splitScheme]
      rw [hpre, if_neg hng]
    have hR : splitScheme ul = ([], ul) := by
      simp only [splitScheme]
      rw [if_neg (fun hcon => hlt hcon.1)]
    rw [hL, hR]

theorem splitNetloc_frag (r fl : List Char) :
    splitNetloc (r ++ '#' :: fl) =
      (splitNetloc r).map (fun x => (x.1, x.2 ++ '#' :: fl)) := by
  cases r with
  | nil =>
    have hL : splitNetloc ([] ++ '#' :: fl) = some ([], '#' :: fl) := by
      rw [List.nil_append]
      simp only [splitNetloc]
      rw [if_neg (by cases fl <;> simp [List.take])]
    have hR : splitNetloc ([] : List Char) = some ([], []) := rfl
    rw [hL, hR]
    rfl
  | cons a r' =>
    cases r' with
    | nil =>
      have hL : splitNetloc ([a] ++ '#' :: fl) = some ([], [a] ++ '#' :: fl) := by
        simp only [splitNetloc]
        rw [if_neg (by simp [List.take])]
      have hR : splitNetloc [a] = some ([], [a]) := by
        simp only [splitNetloc]
        rw [if_neg (by simp [List.take])]
      rw [hL, hR]
      rfl
    | cons b r'' =>
      have hcc : (a :: b :: r'') ++ '#' :: fl = a :: b :: (r'' ++ '#' :: fl) := rfl
      have ht1 : (a :: b :: (r'' ++ '#' :: fl)).take 2 = [a, b] := rfl
      have ht2 : (a :: b :: r'').take 2 = [a, b] := rfl
      have hd1 : (a :: b :: (r'' ++ '#' :: fl) : List Char).drop 2 =
          r'' ++ '#' :: fl := rfl
      have hd2 : (a :: b :: r'' : List Char).drop 2 = r'' := rfl
      by_cases hab : ([a, b] : List Char) = ['/', '/']
      · have htw : (r'' ++ '#' :: fl).takeWhile notDelim =
            r''.takeWhile notDelim :=
          takeWhile_append_cons_fail r'' fl (by decide)
        have hdw : (r'' ++ '#' :: fl).dropWhile notDelim =
            r''.dropWhile notDelim ++ '#' :: fl :=
          dropWhile_append_cons_fail r'' fl (by decide)
        have hL : splitNetloc ((a :: b :: r'') ++ '#' :: fl) =
            (if netlocInvalid (r''.takeWhile notDelim) = true then none
             else some (r''.takeWhile notDelim,
               r''.dropWhile notDelim ++ '#' :: fl)) := by
          rw [hcc]
          simp only [splitNetloc]
          rw [ht1, if_pos hab, hd1, htw, hdw]
        have hR : splitNetloc (a :: b :: r'') =
            (if netlocInvalid (r''.takeWhile notDelim) = true then none
             else some (r''.takeWhile notDelim, r''.dropWhile notDelim)) := by
          simp only [splitNetloc]
          rw [ht2, if_pos hab, hd2]
        rw [hL, hR]
        by_cases hinv : netlocInvalid (r''.takeWhile notDelim) = true
        · rw [if_pos hinv, if_pos hinv]
          rfl
        · rw [if_neg hinv, if_neg hinv]
          rfl
      · have hL : splitNetloc ((a :: b :: r'') ++ '#' :: fl) =
            some ([], (a :: b :: r'') ++ '#' :: fl) := by
          rw [hcc]
          simp only [splitNetloc]
          rw [ht1, if_neg hab]
        have hR : splitNetloc (a :: b :: r'') = some ([], a :: b :: r'') := by
          simp only [splitNetloc]
          rw [ht2, if_neg hab]
        rw [hL, hR]
        rfl

theorem pyUrlparse_frag (ul fl : List Char) :
    pyUrlparse (ul ++ '#' :: fl) = pyUrlparse ul := by
  have hsch := splitScheme_frag ul fl
  have hsch2 : (splitScheme (ul ++ '#' :: fl)).2 =
      (splitScheme ul).2 ++ '#' :: fl := by rw [hsch]
  have hsch1 : (splitScheme (ul ++ '#' :: fl)).1 = (splitScheme ul).1 := by rw [hsch]
  cases hnn : splitNetloc (splitScheme ul).2 with
  | none =>
    have hnnL : splitNetloc (splitScheme (ul ++ '#' :: fl)).2 = none := by
      rw [hsch2, splitNetloc_frag, hnn]
      rfl
    rw [pyUrlparse_of_netloc_none hnnL, pyUrlparse_of_netloc_none hnn]
  | some nn =>
    have hnnL : splitNetloc (splitScheme (ul ++ '#' :: fl)).2 =
        some (nn.1, nn.2 ++ '#' :: fl) := by
      rw [hsch2, splitNetloc_frag, hnn]
      rfl
    have hfrag : dropFrag (nn.2 ++ '#' :: fl) = dropFrag nn.2 := by
      show (nn.2 ++ '#' :: fl).takeWhile (fun c => c ≠ '#') = _
      rw [takeWhile_append_cons_fail _ fl (by decide)]
      rfl
    rw [pyUrlparse_of_netloc hnnL, pyUrlparse_of_netloc hnn, hsch1]
    show some ((splitScheme ul).1, nn.1,
        (if String.mk (splitScheme ul).1 ∈ uses_params ∧
            (';' : Char) ∈ (splitQuery (dropFrag (nn.2 ++ '#' :: fl))).1
          then splitparams (splitQuery (dropFrag (nn.2 ++ '#' :: fl))).1
          else (splitQuery (dropFrag (nn.2 ++ '#' :: fl))).1),
        (splitQuery (dropFrag (nn.2 ++ '#' :: fl))).2) = _
    rw [hfrag]

theorem normList_frag (ul fl : List Char) :
    normList (ul ++ '#' :: fl) = normList ul := by
  rw [normList, normList, pyUrlparse_frag ul fl]

/-! ### Claims -/

/-- Claim C1, counterexample: with a page budget of 0 the loop body never
runs, yet lines 84–86 have already put the normalized seed into the Visited
Set, whose size 1 exceeds the budget 0. -/
theorem claim_C1_counterexample :
    (crawlFull (fun _ => FetchOutcome.err) "http://a.example" 3 0 1).visited.length = 1 ∧
    ¬ (crawlFull (fun _ => FetchOutcome.err) "http://a.example" 3 0 1).visited.length ≤ 0 := by
  constructor
  · rfl
  · decide

/-- Claim C1, amended: provided the page budget is at least 1, the final
pages-crawled count of `crawl_async` never exceeds the budget, and the
Visited Set of every state the crawl passes through has at most budget-many
addresses. -/
theorem claim_C1 (fetch : String → FetchOutcome) (s : String) (md mp w : Nat)
    (hmp : 1 ≤ mp) :
    (crawl_async fetch s md mp w).1 ≤ mp ∧
    (∀ st, Reach fetch s md mp w st → st.visited.length ≤ mp) := by
  constructor
  · obtain ⟨_, _, _, _, hcount, hlen, _⟩ :=
      reach_inv fetch s md mp w _ (reach_crawlFull fetch s md mp w)
    show (crawlFull fetch s md mp w).pagesCrawled ≤ mp
    omega
  · intro st hst
    obtain ⟨_, _, _, _, _, hlen, _⟩ := reach_inv fetch s md mp w st hst
    omega

/-- Claim C1, witness. -/
theorem claim_C1_witness :
    1 ≤ 5 ∧
    (crawl_async (fun _ => FetchOutcome.err) "http://b.example" 3 5 1).1 ≤ 5 ∧
    (initState "http://b.example").visited.length ≤ 5 :=
  ⟨by decide,
   (claim_C1 (fun _ => FetchOutcome.err) "http://b.example" 3 5 1 (by decide)).1,
   (claim_C1 (fun _ => FetchOutcome.err) "http://b.example" 3 5 1 (by decide)).2
     _ Reach.init⟩

/-- Claim C2, counterexample: with an oracle for which every fetch raises, the
seed batch is still counted — `crawl_url` swallows the exception and returns a
tuple, `isinstance(result, tuple)` is true, and `pages_crawled` becomes 1
although there was no successful Page Result (the claim predicts 0). -/
theorem claim_C2_counterexample :
    (crawl_async (fun _ => FetchOutcome.err) "http://c.example" 3 5 1).1 = 1 ∧
    (crawl_async (fun _ => FetchOutcome.err) "http://c.example" 3 5 1).2 = ∅ := by
  constructor
  · rfl
  · decide

/-- Claim C2, amended: the crawled-page counter is incremented exactly once
per fetch attempt — transport and HTTP failures included, since `crawl_url`
returns a result tuple for them as well — while the Word Corpus receives
exactly the union of the per-result word sets, which are empty for failed and
non-HTML fetches. -/
theorem claim_C2 :
    (∀ fetch mp batch (st : CrawlState),
      (processBatch fetch mp batch st).pagesCrawled =
        st.pagesCrawled + batch.length) ∧
    (∀ fetch mp batch (st : CrawlState),
      (processBatch fetch mp batch st).allWords =
        (batch.map (fun e => crawl_url fetch e.1)).foldl
          (fun acc r => acc ∪ r.2.1) st.allWords) ∧
    (∀ (fetch : String → FetchOutcome) u,
      fetch u = FetchOutcome.err ∨ fetch u = FetchOutcome.nonHtml →
      (crawl_url fetch u).2.1 = ∅) := by
  refine ⟨?_, ?_, ?_⟩
  · intro fetch mp batch st
    rw [processBatch, processResults_pages]
    simp
  · intro fetch mp batch st
    rw [processBatch, processResults_words]
  · intro fetch u h
    rcases h with h | h <;> simp [crawl_url, h]

/-- Claim C2, witness. -/
theorem claim_C2_witness :
    (processBatch (fun _ => FetchOutcome.err) 5 [("http://d.example", 0)]
      (initState "http://d.example")).pagesCrawled =
      (initState "http://d.example").pagesCrawled + 1 ∧
    (crawl_url (fun _ => FetchOutcome.err) "http://d.example").2.1 = ∅ :=
  ⟨claim_C2.1 (fun _ => FetchOutcome.err) 5 [("http://d.example", 0)]
      (initState "http://d.example"),
   claim_C2.2.2 (fun _ => FetchOutcome.err) "http://d.example" (Or.inl rfl)⟩

/-- Claim C3: `crawl_url` never propagates an error to the orchestrator: it
is a total function whose result always carries the fetched address, and on
any exception — non-2xx status via `raise_for_status`, transport/protocol
error, or parse failure, all of which land in the `except` branch — it
returns `(address, ∅, ∅)`. -/
theorem claim_C3 (fetch : String → FetchOutcome) (u : String) :
    (crawl_url fetch u).1 = u ∧
    (fetch u = FetchOutcome.err → crawl_url fetch u = (u, ∅, [])) := by
  constructor
  · cases h : fetch u with
    | err => simp [crawl_url, h]
    | nonHtml => simp [crawl_url, h]
    | html text anchors =>
      simp only [crawl_url, h]
      cases normalizeLinks anchors <;> rfl
  · intro h
    simp [crawl_url, h]

/-- Claim C3, witness. -/
theorem claim_C3_witness :
    (crawl_url (fun _ => FetchOutcome.err) "http://e.example").1 = "http://e.example" ∧
    crawl_url (fun _ => FetchOutcome.err) "http://e.example" =
      ("http://e.example", ∅, []) :=
  ⟨(claim_C3 (fun _ => FetchOutcome.err) "http://e.example").1,
   (claim_C3 (fun _ => FetchOutcome.err) "http://e.example").2 rfl⟩

/-- Claim C4: every frontier entry created by link discovery is enqueued at
depth 0 (line 127), every reachable queue holds only depth-0 entries, and for
entries within the depth bound — in particular all of them, for any maximum
depth, since every depth is 0 — a batch dequeue discards nothing: batch ++
rest is the whole queue. -/
theorem claim_C4 :
    (∀ mp v q ls e, e ∈ (enqueueLinks mp (v, q) ls).2 → e ∈ q ∨ e.2 = 0) ∧
    (∀ fetch s md mp w st e, Reach fetch s md mp w st → e ∈ st.queue → e.2 = 0) ∧
    (∀ md mc (q : List (String × Nat)), (∀ e ∈ q, e.2 = 0) →
      (dequeue_batch md mc q).1 ++ (dequeue_batch md mc q).2 = q) := by
  refine ⟨?_, ?_, ?_⟩
  · intro mp v q ls e he
    obtain ⟨new, heq, _, _, _⟩ := enqueueLinks_spec mp ls v q
    rw [heq] at he
    rcases List.mem_append.mp he with h1 | h2
    · exact Or.inl h1
    · obtain ⟨a, _, rfl⟩ := List.mem_map.mp h2
      exact Or.inr rfl
  · intro fetch s md mp w st e hst he
    exact (reach_inv fetch s md mp w st hst).2.2.2.1 e he
  · intro md mc q hq
    rw [dequeue_batch_all_le md mc q (fun e he => by rw [hq e he]; exact Nat.zero_le md)]
    exact List.take_append_drop mc q

/-- Claim C4, witness. -/
theorem claim_C4_witness :
    (("http://f.example", 0) ∈ ([] : List (String × Nat)) ∨
      (("http://f.example", 0) : String × Nat).2 = 0) ∧
    ((("http://f.example", 0) : String × Nat).2 = 0) ∧
    (dequeue_batch 3 2 [(("http://f.example" : String), 0)]).1 ++
      (dequeue_batch 3 2 [(("http://f.example" : String), 0)]).2 =
      [(("http://f.example" : String), 0)] :=
  ⟨claim_C4.1 5 [] [] ["http://f.example"] ("http://f.example", 0) (by decide),
   claim_C4.2.1 (fun _ => FetchOutcome.err) "http://f.example" 3 5 1
     (initState "http://f.example") ("http://f.example", 0) Reach.init (by decide),
   claim_C4.2.2 3 2 [("http://f.example", 0)] (by decide)⟩

/-- Claim C5: a batch dequeue returns the first at-most-`maxCount`
within-depth entries in FIFO order (discarding the over-depth entries it
passes), returns the empty batch on an exhausted queue, and — the queue
holding pairwise distinct addresses — never yields an address twice: batch
and remaining queue together are duplicate-free. -/
theorem claim_C5 :
    (∀ md mc (q : List (String × Nat)),
      (dequeue_batch md mc q).1 = (q.filter (fun e => e.2 ≤ md)).take mc) ∧
    (∀ md mc (q : List (String × Nat)), (dequeue_batch md mc q).1.length ≤ mc) ∧
    (∀ md mc, dequeue_batch md mc ([] : List (String × Nat)) = ([], [])) ∧
    (∀ md mc (q : List (String × Nat)), (q.map Prod.fst).Nodup →
      (((dequeue_batch md mc q).1 ++ (dequeue_batch md mc q).2).map Prod.fst).Nodup) := by
  refine ⟨?_, ?_, ?_, ?_⟩
  · intro md mc q
    exact dequeue_batch_fst md mc q
  · intro md mc q
    rw [dequeue_batch_fst]
    exact List.length_take_le mc _
  · intro md mc
    rfl
  · intro md mc q hq
    exact List.Nodup.sublist
      (List.Sublist.map Prod.fst (dequeue_batch_sublist md mc q)) hq

/-- Claim C5, witness. -/
theorem claim_C5_witness :
    (dequeue_batch 0 4 [(("http://g.example" : String), 0), ("http://h.example", 1)]).1 =
      (([(("http://g.example" : String), 0), ("http://h.example", 1)]).filter
        (fun e => e.2 ≤ 0)).take 4 ∧
    (dequeue_batch 0 4 [(("http://g.example" : String), 0), ("http://h.example", 1)]).1.length ≤ 4 ∧
    dequeue_batch 0 4 ([] : List (String × Nat)) = ([], []) ∧
    (((dequeue_batch 0 4 [(("http://g.example" : String), 0), ("http://h.example", 1)]).1 ++
      (dequeue_batch 0 4 [(("http://g.example" : String), 0), ("http://h.example", 1)]).2).map
        Prod.fst).Nodup :=
  ⟨claim_C5.1 0 4 _,
   claim_C5.2.1 0 4 _,
   claim_C5.2.2.1 0 4,
   claim_C5.2.2.2 0 4 [("http://g.example", 0), ("http://h.example", 1)] (by decide)⟩

/-- Claim C6: over any crawl, the Visited Set never holds an address twice
(membership is checked before enqueue and the address marked visited at
enqueue time), the frontier holds pairwise distinct addresses all of which
are already visited, and a duplicated link in one page's link set is a
no-op. -/
theorem claim_C6 :
    (∀ fetch s md mp w st, Reach fetch s md mp w st → st.visited.Nodup) ∧
    (∀ fetch s md mp w st, Reach fetch s md mp w st → (st.queue.map Prod.fst).Nodup) ∧
    (∀ fetch s md mp w st e, Reach fetch s md mp w st → e ∈ st.queue →
      e.1 ∈ st.visited) ∧
    (∀ mp v q l ls,
      enqueueLinks mp (v, q) (l :: l :: ls) = enqueueLinks mp (v, q) (l :: ls)) := by
  refine ⟨?_, ?_, ?_, ?_⟩
  · intro fetch s md mp w st hst
    exact (reach_inv fetch s md mp w st hst).1
  · intro fetch s md mp w st hst
    exact (reach_inv fetch s md mp w st hst).2.1
  · intro fetch s md mp w st e hst he
    exact (reach_inv fetch s md mp w st hst).2.2.1 e he
  · intro mp v q l ls
    exact enqueueLinks_dup mp v q l ls

/-- Claim C6, witness. -/
theorem claim_C6_witness :
    (initState "http://i.example").visited.Nodup ∧
    ((initState "http://i.example").queue.map Prod.fst).Nodup ∧
    (("http://i.example", 0) : String × Nat).1 ∈ (initState "http://i.example").visited ∧
    enqueueLinks 5 ([], []) ["http://j.example", "http://j.example"] =
      enqueueLinks 5 ([], []) ["http://j.example"] :=
  ⟨claim_C6.1 (fun _ => FetchOutcome.err) "http://i.example" 3 5 1 _ Reach.init,
   claim_C6.2.1 (fun _ => FetchOutcome.err) "http://i.example" 3 5 1 _ Reach.init,
   claim_C6.2.2.1 (fun _ => FetchOutcome.err) "http://i.example" 3 5 1
     (initState "http://i.example") ("http://i.example", 0) Reach.init (by decide),
   claim_C6.2.2.2 5 [] [] "http://j.example" []⟩

/-- Claim C7: word extraction lowercases the text and returns the set of
maximal runs of ASCII letters: on the claim's input it yields exactly
{hello, world, foo, bar} (punctuation and digits excluded, the hyphen
splits), and within-page duplicates — also across letter case — collapse. -/
theorem claim_C7 :
    extract_words "Hello, World! foo-bar 123" = {"hello", "world", "foo", "bar"} ∧
    extract_words "AAa aaA" = {"aaa"} := by
  constructor
  · decide
  · decide

/-- Claim C8, counterexample: normalization is neither total nor idempotent
on every raw locator.  The schemeless locator `""` gains a fresh `://` prefix
on each application (`"://"`, then `"://://"`).  And on `"http:[abc"` the
first application returns `"http://[abc"`, on which a second application
raises `ValueError("Invalid IPv6 URL")`: the reassembled string re-parses
with netloc `[abc`, which has an unbalanced bracket. -/
theorem claim_C8_counterexample :
    normalize_url "" = some "://" ∧
    normalize_url "://" = some "://://" ∧
    (some "://://" : Option String) ≠ some "://" ∧
    normalize_url "http:[abc" = some "http://[abc" ∧
    normalize_url "http://[abc" = none := by
  refine ⟨rfl, rfl, by decide, rfl, rfl⟩

/-- Claim C8, amended: `normalize_url` is a pure partial function of its
argument alone — it raises `ValueError` exactly when `urlsplit` rejects the
netloc, modelled as `none`.  On every locator from which `urlparse` extracts
a scheme (a colon preceded by an ASCII letter and scheme characters — e.g.
every http/https locator): if the locator consists of ASCII characters
without square brackets, normalization succeeds and is idempotent, and in
general a second application either returns the first result unchanged or
raises (as on `"http:[abc"`, whose normalization `"http://[abc"` re-parses to
a bracket-invalid netloc).  A schemeless locator instead gains a `://` prefix
on each pass.  The fragment property holds in full generality: appending
`#fragment` to any raw form never changes the normalization, including
whether it raises. -/
theorem claim_C8 :
    (∀ u : String, (splitScheme u.data).1 ≠ [] →
      (∀ c ∈ u.data, c ≠ '[' ∧ c ≠ ']' ∧ c.toNat < 128) →
      (normalize_url u).isSome = true ∧
      (normalize_url u).bind normalize_url = normalize_url u) ∧
    (∀ u v w : String, (splitScheme u.data).1 ≠ [] →
      normalize_url u = some v → normalize_url v = some w → w = v) ∧
    (∀ u f : String, normalize_url (u ++ "#" ++ f) = normalize_url u) := by
  refine ⟨?_, ?_, ?_⟩
  · intro u hne hgood
    obtain ⟨v, h1, h2⟩ := normList_good hne hgood
    have hnu : normalize_url u = some (String.mk v) := by
      show (normList u.data).map String.mk = some (String.mk v)
      rw [h1]
      rfl
    refine ⟨by simp [hnu], ?_⟩
    rw [hnu]
    show normalize_url (String.mk v) = some (String.mk v)
    show (normList v).map String.mk = some (String.mk v)
    rw [h2]
    rfl
  · intro u v w hne hu hv
    have hnu := normalize_url_some_elim hu
    have hnv := normalize_url_some_elim hv
    rcases normList_stable hne hnu with hnone | hsome
    · rw [hnone] at hnv
      cases hnv
    · rw [hsome] at hnv
      exact congrArg String.mk (Option.some.inj hnv).symm
  · intro u f
    show (normList (u ++ "#" ++ f).data).map String.mk =
      (normList u.data).map String.mk
    have hdata : (u ++ "#" ++ f).data = u.data ++ '#' :: f.data := by
      simp [String.data_append]
    rw [hdata, normList_frag]

/-- Claim C8, witness. -/
theorem claim_C8_witness :
    (splitScheme ("http://x.example/a?b" : String).data).1 ≠ [] ∧
    (normalize_url "http://x.example/a?b").isSome = true ∧
    (normalize_url "http://x.example/a?b").bind normalize_url =
      normalize_url "http://x.example/a?b" ∧
    ("http://x.example/a?b" : String) = "http://x.example/a?b" ∧
    normalize_url ("http://x.example/p" ++ "#" ++ "sec") =
      normalize_url "http://x.example/p" :=
  ⟨by decide,
   (claim_C8.1 "http://x.example/a?b" (by decide) (by decide)).1,
   (claim_C8.1 "http://x.example/a?b" (by decide) (by decide)).2,
   claim_C8.2.1 "http://x.example/a?b" "http://x.example/a?b"
     "http://x.example/a?b" (by decide) rfl rfl,
   claim_C8.2.2 "http://x.example/p" "sec"⟩

/-- Claim C10: word extraction is case-insensitive — equal on any two case
variants, in particular on an uppercased copy — and closed over the lowercase
alphabet: every extracted word, and hence every word of the final corpus of
any crawl, is a nonempty string of ASCII lowercase letters. -/
theorem claim_C10 :
    (∀ s t, CaseVariant s t → extract_words s = extract_words t) ∧
    (∀ s : String, extract_words (String.mk (s.data.map upperChar)) = extract_words s) ∧
    (∀ s w, w ∈ extract_words s → w ≠ "" ∧ w.data.all isLowerA = true) ∧
    (∀ fetch s md mp wk word, word ∈ (crawl_async fetch s md mp wk).2 →
      word ≠ "" ∧ word.data.all isLowerA = true) := by
  have hcv : ∀ s t : String, CaseVariant s t → extract_words s = extract_words t := by
    intro s t h
    unfold extract_words
    rw [h]
  refine ⟨hcv, ?_, ?_, ?_⟩
  · intro s
    exact hcv _ s (caseVariant_upper s)
  · intro s w hw
    exact extract_words_allLower s w hw
  · intro fetch s md mp wk word hword
    obtain ⟨_, _, _, _, _, _, hw⟩ :=
      reach_inv fetch s md mp wk _ (reach_crawlFull fetch s md mp wk)
    exact hw word hword

/-- Claim C10, witness. -/
theorem claim_C10_witness :
    extract_words "AbC de" = extract_words "aBc DE" ∧
    (("ok" : String) ≠ "" ∧ ("ok" : String).data.all isLowerA = true) ∧
    (("one" : String) ≠ "" ∧ ("one" : String).data.all isLowerA = true) :=
  ⟨claim_C10.1 "AbC de" "aBc DE" (by unfold CaseVariant; decide),
   claim_C10.2.2.1 "Ok go" "ok" (by decide),
   claim_C10.2.2.2 (fun _ => FetchOutcome.html "One" []) "http://k.example" 0 5 1
     "one" (by decide)⟩

end Crawler
